import Mathlib

/-!
# pmem_bench: the staged SPSC ring buffer and its test harness

A shallow embedding of `include/pmem_bench/ring_buffer.h` and of the
producer / consumer routines of `src/test_spsc.cpp`.

Conventions of the embedding.

* `uint64_t` and `uint32_t` values are natural numbers; every C++ operation
  that can wrap is written with an explicit `% 2 ^ 64` or `% 2 ^ 32`.
* The two memory regions are byte maps `Nat → Nat` (offset to byte value).
  `memset` and `pmem_memcpy_persist` are pointwise updates of such a map. The
  maps have no end: a run records every `pmem_memcpy_persist` it makes, so
  that the bytes it touches can be compared with the region sizes.
* Code paths that leave the C++ abstract machine (an integer division by
  zero) or that end the process (`exit(1)` after `Logic Error in Dequeue`)
  return a `Fault`.
* The `float` threshold of `SetThresh` is an exact rational; the conversion
  back to `uint64_t` truncates.
* The two threads of a round take turns under a schedule; one turn is one pass
  of the thread through its loop, executed without interruption.
-/

namespace pmem_bench

/-- The ways a call can fail to return: an integer division (or remainder) by
zero, the `exit(1)` of the `Logic Error in Dequeue` check of `Consume`, and the
`exit(1)` of the driver when `thresh_cur` is not between 0 and 1. -/
inductive Fault where
  | divByZero
  | logicError
  | threshRange
  deriving DecidableEq

/-- The fields of `struct ring_buffer`. `ram_queue_` and `pmem_queue_` hold
the contents of the regions the two pointers refer to. -/
structure ring_buffer where
  enqueued_ : Nat
  dequeued_ : Nat
  ram_region_size_ : Nat
  pmem_region_size_ : Nat
  max_ram_depth_ : Nat
  max_pmem_depth_ : Nat
  min_consume_depth_ : Nat
  type_size_ : Nat
  ram_queue_ : Nat → Nat
  pmem_queue_ : Nat → Nat

/-- One call of `pmem_memcpy_persist`: destination byte offset in the durable
region, source byte offset in the staging region, and byte length. -/
structure Copy where
  dst : Nat
  src : Nat
  len : Nat
  deriving DecidableEq

/-- The effect of `memset(base + off, c, n)` on a byte map: `n` bytes from
`off` on become `(unsigned char) c`. -/
def memset (m : Nat → Nat) (off c n : Nat) : Nat → Nat :=
  fun a => if off ≤ a ∧ a < off + n then c % 256 else m a

/-- The effect of `pmem_memcpy_persist(dstBase + dstOff, srcBase + srcOff, n)`
on the destination byte map. -/
def memcpy (dst : Nat → Nat) (dstOff : Nat) (src : Nat → Nat) (srcOff n : Nat) :
    Nat → Nat :=
  fun a => if dstOff ≤ a ∧ a < dstOff + n then src (srcOff + (a - dstOff)) else dst a

namespace ring_buffer

/-- The private `OFF(uint32_t i)`, which returns `i*type_size_` as a
`uint64_t`: the argument is narrowed to 32 bits and the product of two
`uint32_t` is taken modulo `2 ^ 32` before it is widened to the result
type. -/
def OFF (s : ring_buffer) (i : Nat) : Nat :=
  ((i % 2 ^ 32) * s.type_size_) % 2 ^ 32

/-- The depth `GetDepth`: `enqueued_ - dequeued_` in `uint64_t`. -/
def GetDepth (s : ring_buffer) : Nat :=
  (s.enqueued_ + 2 ^ 64 - s.dequeued_) % 2 ^ 64

/-- The bound `GetMaxDepth`: the durable capacity in records. -/
def GetMaxDepth (s : ring_buffer) : Nat :=
  s.max_pmem_depth_

/-- The call `Reset`: both counters become zero. -/
def Reset (s : ring_buffer) : ring_buffer :=
  { s with enqueued_ := 0, dequeued_ := 0 }

/-- The call `SetTypeSize`: stores the record size and derives the two capacities by
integer division, which is undefined for a record size of zero. -/
def SetTypeSize (s : ring_buffer) (type_size : Nat) : Except Fault ring_buffer :=
  if type_size = 0 then .error .divByZero
  else .ok { s with
    type_size_ := type_size
    max_ram_depth_ := s.ram_region_size_ / type_size
    max_pmem_depth_ := s.pmem_region_size_ / type_size }

/-- The call `SetThresh`: `min_consume_depth_ = max_ram_depth_ * consume_thresh`,
the product taken exactly and truncated to a `uint64_t`. A negative product,
for which the C++ conversion is undefined, gives zero. -/
def SetThresh (s : ring_buffer) (consume_thresh : ℚ) : ring_buffer :=
  { s with min_consume_depth_ :=
      (Int.toNat ⌊(s.max_ram_depth_ : ℚ) * consume_thresh⌋) % 2 ^ 64 }

/-- The call `Init`: binds the two regions, then `Reset`, `SetTypeSize`, `SetThresh`,
and returns `true`. -/
def Init (s : ring_buffer) (type_size : Nat) (ram_region : Nat → Nat)
    (ram_region_size : Nat) (pmem_region : Nat → Nat) (pmem_region_size : Nat)
    (consume_thresh : ℚ) : Except Fault (Bool × ring_buffer) :=
  let s1 := { s with
    ram_region_size_ := ram_region_size
    pmem_region_size_ := pmem_region_size
    ram_queue_ := ram_region
    pmem_queue_ := pmem_region }
  let s2 := s1.Reset
  match s2.SetTypeSize type_size with
  | .error e => .error e
  | .ok s3 => .ok (true, s3.SetThresh consume_thresh)

/-- The call `Enqueue`: refuses when the depth has reached the staging capacity;
otherwise fills the slot `enqueued_ % max_ram_depth_` with the byte of
`nonce` and increments `enqueued_`. -/
def Enqueue (s : ring_buffer) (nonce : Nat) : Bool × ring_buffer :=
  if s.GetDepth ≥ s.max_ram_depth_ then (false, s)
  else
    let entry := s.enqueued_ % s.max_ram_depth_
    (true, { s with
      ram_queue_ := memset s.ram_queue_ (s.OFF entry) nonce s.type_size_
      enqueued_ := (s.enqueued_ + 1) % 2 ^ 64 })

/-- What a returning call of `Consume` leaves behind: its return value, the
calls of `pmem_memcpy_persist` it made, in order, and the new state. -/
structure ConsumeResult where
  ret : Bool
  copies : List Copy
  rbuf : ring_buffer

/-- The copying part of `Consume`, lines 75 to 87: the run `[head, tail]` in
one `pmem_memcpy_persist` when `head <= tail`, else `[head, max_ram_depth_)`
followed by `[0, tail]`. Each copy goes to `pmem_queue_ + OFF(dequeued_)` and
is followed by its `dequeued_ +=`. Returns the copies made and the new
state. -/
def copyRun (s : ring_buffer) (head tail : Nat) : List Copy × ring_buffer :=
  if head ≤ tail then
    let len := ((tail - head + 1) * s.type_size_) % 2 ^ 64
    ([⟨s.OFF s.dequeued_, s.OFF head, len⟩],
     { s with
       pmem_queue_ := memcpy s.pmem_queue_ (s.OFF s.dequeued_) s.ram_queue_ (s.OFF head) len
       dequeued_ := (s.dequeued_ + (tail - head + 1)) % 2 ^ 64 })
  else
    let len1 := ((s.max_ram_depth_ - head) * s.type_size_) % 2 ^ 64
    let s1 := { s with
      pmem_queue_ := memcpy s.pmem_queue_ (s.OFF s.dequeued_) s.ram_queue_ (s.OFF head) len1
      dequeued_ := (s.dequeued_ + (s.max_ram_depth_ - head)) % 2 ^ 64 }
    let len2 := ((tail + 1) * s.type_size_) % 2 ^ 64
    ([⟨s.OFF s.dequeued_, s.OFF head, len1⟩, ⟨s1.OFF s1.dequeued_, 0, len2⟩],
     { s1 with
       pmem_queue_ := memcpy s1.pmem_queue_ (s1.OFF s1.dequeued_) s1.ram_queue_ 0 len2
       dequeued_ := (s1.dequeued_ + (tail + 1)) % 2 ^ 64 })

/-- The call `Consume`. The first two tests return `false` without touching anything.
Otherwise `head` and `tail` are the slots of the oldest and of the newest
record not yet flushed, `copyRun` copies the run between them, and the final
check ends the process when `dequeued_` did not advance by the depth read at
entry. A staging capacity of zero makes the two remainders undefined. -/
def Consume (s : ring_buffer) (force : Bool) : Except Fault ConsumeResult :=
  let cur_dequeued := s.dequeued_
  let cur_enqueued := s.enqueued_
  let cur_depth := (cur_enqueued + 2 ^ 64 - cur_dequeued) % 2 ^ 64
  if force = false ∧ cur_depth < s.min_consume_depth_ then .ok ⟨false, [], s⟩
  else if cur_depth = 0 then .ok ⟨false, [], s⟩
  else if s.max_ram_depth_ = 0 then .error .divByZero
  else
    let head := cur_dequeued % s.max_ram_depth_
    let tail := ((cur_enqueued + 2 ^ 64 - 1) % 2 ^ 64) % s.max_ram_depth_
    let r := s.copyRun head tail
    if (cur_dequeued + cur_depth) % 2 ^ 64 ≠ r.2.dequeued_ then .error .logicError
    else .ok ⟨true, r.1, r.2⟩

/-- The invariant of the two counters: nothing is flushed before it is
produced, and the records not yet flushed fit the staging region. -/
def Inv (s : ring_buffer) : Prop :=
  s.dequeued_ ≤ s.enqueued_ ∧ s.enqueued_ - s.dequeued_ ≤ s.max_ram_depth_

end ring_buffer

/-- A queue with every field zero and both regions filled with zero bytes. -/
def blank : ring_buffer :=
  ⟨0, 0, 0, 0, 0, 0, 0, 0, fun _ => 0, fun _ => 0⟩

/-! ## Calls executed one at a time -/

/-- The calls a client can make on an initialised queue. -/
inductive Op where
  | SetThresh (consume_thresh : ℚ)
  | Enqueue (nonce : Nat)
  | Consume (force : Bool)
  | Reset

/-- A queue together with what its calls have done so far: how many `Enqueue`
calls returned `true`, how many returned `false`, the arguments of those that
returned `true`, oldest first, and every call of `pmem_memcpy_persist`, oldest
first. -/
structure Run where
  rbuf : ring_buffer
  accepted : Nat
  refused : Nat
  log : List Nat
  copies : List Copy

/-- A run that has made no call yet. -/
def Run.start (s : ring_buffer) : Run := ⟨s, 0, 0, [], []⟩

/-- Executes one call. -/
def exec (r : Run) : Op → Except Fault Run
  | .SetThresh t => .ok { r with rbuf := r.rbuf.SetThresh t }
  | .Enqueue nonce =>
    let e := r.rbuf.Enqueue nonce
    if e.1 = true then
      .ok { r with rbuf := e.2, accepted := r.accepted + 1, log := r.log ++ [nonce] }
    else .ok { r with rbuf := e.2, refused := r.refused + 1 }
  | .Consume force =>
    match r.rbuf.Consume force with
    | .error f => .error f
    | .ok c => .ok { r with rbuf := c.rbuf, copies := r.copies ++ c.copies }
  | .Reset => .ok { r with rbuf := r.rbuf.Reset }

/-- Executes a sequence of calls, one after the other, stopping at the first
one that does not return. -/
def execAll (r : Run) : List Op → Except Fault Run
  | [] => .ok r
  | op :: ops =>
    match exec r op with
    | .error f => .error f
    | .ok r' => execAll r' ops

/-! ## The producer and the consumer of `test_spsc.cpp` -/

/-- Where the producer stands: at the loop test of `produce` with its locals
`interval` and `i`, returned with a result, or stopped by a fault. -/
inductive ProdPC where
  | loop (interval i : Nat)
  | returned (ok : Bool)
  | crashed (f : Fault)
  deriving DecidableEq

/-- Where the consumer stands: at the test of its `while` loop, returned, or
stopped by a fault. -/
inductive ConsPC where
  | poll
  | returned
  | crashed (f : Fault)
  deriving DecidableEq

/-- The state shared by the two threads during a round, `rbuf` and `future`,
with the position of each thread and two counters kept for the proofs: the
`Enqueue` calls made by the producer and the forced `Consume` calls made by
the consumer. -/
structure Round where
  rbuf : ring_buffer
  future : Bool
  prod : ProdPC
  cons : ConsPC
  attempts : Nat
  forced : Nat

/-- The entry of `produce`: `uint32_t interval = rbuf.GetMaxDepth() / 100` and
`uint32_t i = 0`. -/
def produceEntry (rbuf : ring_buffer) : ProdPC :=
  .loop ((rbuf.GetMaxDepth / 100) % 2 ^ 32) 0

/-- One pass of the `for` loop of `produce`, from the loop test to the
increment of `i`: the `Enqueue`, the early return on failure, and the
remainder `i % interval` that guards the progress line. -/
def producerStep (h : Round) : Round :=
  match h.prod with
  | .loop interval i =>
    if i < h.rbuf.GetMaxDepth then
      let e := h.rbuf.Enqueue i
      if e.1 = false then
        { h with rbuf := e.2, future := true, prod := .returned false,
                 attempts := h.attempts + 1 }
      else if interval = 0 then
        { h with rbuf := e.2, prod := .crashed .divByZero, attempts := h.attempts + 1 }
      else
        { h with rbuf := e.2, prod := .loop interval ((i + 1) % 2 ^ 32),
                 attempts := h.attempts + 1 }
    else { h with future := true, prod := .returned true }
  | _ => h

/-- One pass of `consume`: the load of `future` followed by `Consume(false)`
while the flag is clear, or by the last `Consume(true)` once it is set. -/
def consumerStep (h : Round) : Round :=
  match h.cons with
  | .poll =>
    if h.future = false then
      match h.rbuf.Consume false with
      | .error f => { h with cons := .crashed f }
      | .ok c => { h with rbuf := c.rbuf }
    else
      match h.rbuf.Consume true with
      | .error f => { h with cons := .crashed f, forced := h.forced + 1 }
      | .ok c => { h with rbuf := c.rbuf, cons := .returned, forced := h.forced + 1 }
  | _ => h

/-- The two threads of the parallel region. -/
inductive Role where
  | producer
  | consumer
  deriving DecidableEq

/-- One step of the round: the scheduled thread makes one pass. -/
def roundStep (h : Round) : Role → Round
  | .producer => producerStep h
  | .consumer => consumerStep h

/-- Runs the round under a schedule. -/
def runRound (h : Round) : List Role → Round
  | [] => h
  | r :: rs => runRound (roundStep h r) rs

/-- The function `produce` run on its own: the producer passes through its
loop until it leaves it, for at most `fuel` passes. -/
def produce (fuel : Nat) (rbuf : ring_buffer) (future : Bool) : Round :=
  runRound ⟨rbuf, future, produceEntry rbuf, .returned, 0, 0⟩
    (List.replicate fuel .producer)

/-- The variables of `main` that the calibration loop shares between its
rounds. -/
structure Driver where
  rbuf : ring_buffer
  future : Bool
  thresh_min : ℚ
  thresh_max : ℚ
  thresh_cur : ℚ

/-- The part of a round between the two barriers, run by rank 0: the new
midpoint, `SetThresh`, `Reset`, and the range check on `thresh_cur`. -/
def configure (d : Driver) : Except Fault Driver :=
  let thresh_cur := d.thresh_min + (d.thresh_max - d.thresh_min) / 2
  let rbuf := (d.rbuf.SetThresh thresh_cur).Reset
  if thresh_cur < 0 ∨ thresh_cur > 1 then .error .threshRange
  else .ok { d with thresh_cur := thresh_cur, rbuf := rbuf }

/-- The state in which the two threads leave the second barrier of a round:
the producer enters `produce`, the consumer enters `consume`. -/
def roundBegin (d : Driver) : Round :=
  ⟨d.rbuf, d.future, produceEntry d.rbuf, .poll, 0, 0⟩

/-- The end of a round, once both threads have returned: rank 0 moves
`thresh_max` down to the midpoint when `produce` returned `false` and
`thresh_min` up to it otherwise. -/
def roundEnd (d : Driver) (h : Round) : Option Driver :=
  match h.prod, h.cons with
  | .returned false, .returned =>
    some { d with rbuf := h.rbuf, future := h.future, thresh_max := d.thresh_cur }
  | .returned true, .returned =>
    some { d with rbuf := h.rbuf, future := h.future, thresh_min := d.thresh_cur }
  | _, _ => none

/-- The producer branch at the end of a round, on the thresholds alone:
`thresh_max = thresh_cur` when `produce` returned `false`, and
`thresh_min = thresh_cur` when it returned `true`. -/
def evaluate (d : Driver) (produced : Bool) : Driver :=
  if produced = false then { d with thresh_max := d.thresh_cur }
  else { d with thresh_min := d.thresh_cur }

/-- The calibration loop of `main` over the results `produce` returns in its
rounds, one entry per round: each round configures, runs, and moves one bound
to the midpoint. What a round leaves in the queue is not followed, the next
round resets it. -/
def calibrate : Driver → List Bool → Except Fault Driver
  | d, [] => .ok d
  | d, produced :: rest =>
    match configure d with
    | .error f => .error f
    | .ok d' => calibrate (evaluate d' produced) rest

/-- The calibration loop for `n` rounds when the result of each round is a
function of its threshold: `overflows q` tells whether the producer is refused
in a round run at the fraction `q`. -/
def calibrateOracle (overflows : ℚ → Bool) : Nat → Driver → Except Fault Driver
  | 0, d => .ok d
  | n + 1, d =>
    match configure d with
    | .error f => .error f
    | .ok d' => calibrateOracle overflows n (evaluate d' (!overflows d'.thresh_cur))

/-- The thresholds of a configuration the input checks let through:
`0 ≤ thresh_min ≤ thresh_max ≤ 1`. -/
def Driver.Valid (d : Driver) : Prop :=
  0 ≤ d.thresh_min ∧ d.thresh_min ≤ d.thresh_max ∧ d.thresh_max ≤ 1

/-- The three messages of the input checks of `main`, each followed by
`exit(1)`. -/
inductive Rejection where
  | pmemBelowRam
  | minAboveMax
  | outsideUnit
  deriving DecidableEq

/-- The input checks of `main`, lines 76 to 87, on the two sizes in bytes and
the two thresholds: `none` when all three pass. -/
def inputChecks (pmem_size ram_size : Nat) (thresh_min thresh_max : ℚ) :
    Option Rejection :=
  if pmem_size < ram_size then some .pmemBelowRam
  else if thresh_min > thresh_max then some .minAboveMax
  else if thresh_min < 0 ∨ thresh_max > 1 then some .outsideUnit
  else none

/-- The copies the scheduled thread makes in its pass: none for the producer,
those of its `Consume`, when that call returns, for the consumer. -/
def passCopies (h : Round) : Role → List Copy
  | .producer => []
  | .consumer =>
    match h.cons with
    | .poll =>
      match h.rbuf.Consume h.future with
      | .ok c => c.copies
      | .error _ => []
    | _ => []

/-- The copies made in a round under a schedule, oldest first. -/
def roundCopies (h : Round) : List Role → List Copy
  | [] => []
  | r :: rs => passCopies h r ++ roundCopies (roundStep h r) rs

/-! ## Predicates on queues and runs -/

/-- The records a list of copies moved, for records of `type_size` bytes. -/
def recordsCopied (type_size : Nat) (copies : List Copy) : Nat :=
  (copies.map fun c => c.len / type_size).sum

/-- The `Enqueue` calls a call amounts to: one or none. -/
def Op.enqueues : Op → Nat
  | .Enqueue _ => 1
  | _ => 0

/-- The number of `Enqueue` calls in a sequence of calls. -/
def enqueueCalls (ops : List Op) : Nat :=
  (ops.map Op.enqueues).sum

/-- The calls of a sequence are `Enqueue` and `Consume` calls only. -/
def Op.isQueueCall : Op → Bool
  | .Enqueue _ => true
  | .Consume _ => true
  | _ => false

/-- Every field holds a value of its C++ type: `type_size_` is a `uint32_t`,
the other counters and sizes are `uint64_t`. -/
def ring_buffer.WF (s : ring_buffer) : Prop :=
  s.enqueued_ < 2 ^ 64 ∧ s.dequeued_ < 2 ^ 64 ∧ s.ram_region_size_ < 2 ^ 64 ∧
  s.pmem_region_size_ < 2 ^ 64 ∧ s.max_ram_depth_ < 2 ^ 64 ∧ s.max_pmem_depth_ < 2 ^ 64 ∧
  s.min_consume_depth_ < 2 ^ 64 ∧ s.type_size_ < 2 ^ 32

instance (s : ring_buffer) : Decidable s.WF := by
  unfold ring_buffer.WF; infer_instance

instance (s : ring_buffer) : Decidable s.Inv := by
  unfold ring_buffer.Inv; infer_instance

/-- The bookkeeping of a run that started on a reset queue and made only
`Enqueue` and `Consume` calls: the invariant holds, `enqueued_` counts the
accepted records, `dequeued_` counts the records copied, and a full staging
buffer has a byte length that fits a `uint64_t`. -/
def Run.Tracked (r : Run) : Prop :=
  r.rbuf.Inv ∧ r.rbuf.enqueued_ = r.accepted ∧
  recordsCopied r.rbuf.type_size_ r.copies = r.rbuf.dequeued_ ∧
  0 < r.rbuf.type_size_ ∧ r.rbuf.max_ram_depth_ * r.rbuf.type_size_ < 2 ^ 64

/-- The contents of the two regions agree with the log of a run: the log has
one entry per record produced, every record not yet flushed fills its staging
slot with the byte of its entry, and every record flushed fills its place in
the durable region, record `j` at the bytes from `j * type_size_` on. -/
def Run.Stored (r : Run) : Prop :=
  r.rbuf.enqueued_ = r.log.length ∧
  (∀ j b, r.rbuf.dequeued_ ≤ j → j < r.rbuf.enqueued_ → b < r.rbuf.type_size_ →
    r.rbuf.ram_queue_ (j % r.rbuf.max_ram_depth_ * r.rbuf.type_size_ + b) =
      r.log.getD j 0 % 256) ∧
  (∀ j b, j < r.rbuf.dequeued_ → b < r.rbuf.type_size_ →
    r.rbuf.pmem_queue_ (j * r.rbuf.type_size_ + b) = r.log.getD j 0 % 256)

/-- The sequence `Enqueue(0), Consume(true)` repeated `n` times. -/
def pairs : Nat → List Op
  | 0 => []
  | n + 1 => .Enqueue 0 :: .Consume true :: pairs n

/-! ## States and runs the theorems are evaluated at -/

/-- A queue of `2 ^ 31` four-byte slots (an 8 GiB staging region and an 8 GiB
durable region) after `2 ^ 30` records have been produced and flushed. -/
def wideQueue : ring_buffer :=
  ⟨2 ^ 30, 2 ^ 30, 2 ^ 33, 2 ^ 33, 2 ^ 31, 2 ^ 31, 0, 4, fun _ => 0, fun _ => 0⟩

/-- A queue of four four-byte slots over an 8 GiB durable region, after
`2 ^ 30` records have been flushed and one more has been produced. -/
def longQueue : ring_buffer :=
  ⟨2 ^ 30 + 1, 2 ^ 30, 16, 2 ^ 33, 4, 2 ^ 31, 0, 4, fun a => if a < 4 then 9 else 0,
   fun _ => 0⟩

/-- A state of a queue of four one-byte slots that no run reaches: ten records
produced, none flushed. -/
def overfullQueue : ring_buffer :=
  ⟨10, 0, 4, 16, 4, 16, 0, 1, fun _ => 0, fun _ => 0⟩

/-- A queue of eight one-byte slots, all of them in use. -/
def fullQueue : ring_buffer :=
  ⟨8, 0, 8, 8, 8, 8, 0, 1, fun _ => 0, fun _ => 0⟩

/-- A queue of four one-byte slots holding two records, with a threshold of
three records. -/
def halfQueue : ring_buffer :=
  ⟨2, 0, 4, 16, 4, 16, 3, 1, fun a => a + 1, fun _ => 0⟩

/-- The producer about to make its `2 ^ 32`-th pass over a queue whose durable
capacity is `2 ^ 32` one-byte records: `i` holds `2 ^ 32 - 1`, that many
records were accepted, and the consumer has flushed them all. -/
def lastPass : Round :=
  ⟨⟨2 ^ 32 - 1, 2 ^ 32 - 1, 8, 2 ^ 32, 8, 2 ^ 32, 0, 1, fun _ => 0, fun _ => 0⟩,
   false, .loop 42949672 (2 ^ 32 - 1), .poll, 2 ^ 32 - 1, 0⟩

/-- The queue `main` builds over two one-byte staging slots and two hundred
durable ones: what `Init(1, ram, 2, pmem, 200)` leaves. -/
def smallQueue : ring_buffer :=
  ⟨0, 0, 2, 200, 2, 200, 0, 1, fun _ => 0, fun _ => 0⟩

/-- The variables of `main` before the first round, for thresholds 0 and 1. -/
def beforeRound1 : Driver :=
  ⟨smallQueue, false, 0, 1, (1 - 0) / 2⟩

/-- The variables of `main` after the configuration step of round 1. -/
def round1 : Driver :=
  { beforeRound1 with
    thresh_cur := 0 + (1 - 0) / 2
    rbuf := (smallQueue.SetThresh (0 + (1 - 0) / 2)).Reset }

/-- Round 1 under the schedule: the producer three times, then the
consumer. -/
def round1Run : Round :=
  runRound (roundBegin round1) [.producer, .producer, .producer, .consumer]

/-- The variables of `main` after round 1, in which `produce` returned
`false`. -/
def afterRound1 : Driver :=
  { round1 with rbuf := round1Run.rbuf, future := round1Run.future,
                thresh_max := round1.thresh_cur }

/-- The variables of `main` after the configuration step of round 2. -/
def round2 : Driver :=
  { afterRound1 with
    thresh_cur := 0 + ((0 + (1 - 0) / 2) - 0) / 2
    rbuf := (round1Run.rbuf.SetThresh (0 + ((0 + (1 - 0) / 2) - 0) / 2)).Reset }

/-- Round 2 under the schedule: the consumer first, then the producer three
times. -/
def round2Run : Round :=
  runRound (roundBegin round2) [.consumer, .producer, .producer, .producer]

/-- The queue of a round over two staging slots of `2 ^ 31` bytes each and a
durable region of `2 ^ 38` bytes, 128 records: what `Init`, `SetThresh` with
the fraction `1 / 2` and `Reset` leave. The threshold is one record. -/
def bigRecordQueue : ring_buffer :=
  ⟨0, 0, 2 ^ 32, 2 ^ 38, 2, 128, 1, 2 ^ 31, fun _ => 0, fun _ => 0⟩

/-- The first round over `bigRecordQueue` as the two threads enter it. -/
def bigRecordRound : Round :=
  roundBegin ⟨bigRecordQueue, false, 0, 1, 0 + (1 - 0) / 2⟩

/-- The copies of a list follow one another in the durable region from the
offset `start` on: each begins where the one before it ended and is at least
one byte long. -/
def chained : Nat → List Copy → Prop
  | _, [] => True
  | start, c :: cs => c.dst = start ∧ 0 < c.len ∧ chained (start + c.len) cs

/-- The bytes a list of copies writes, in all. -/
def bytesCopied (copies : List Copy) : Nat :=
  (copies.map fun c => c.len).sum

end pmem_bench

namespace pmem_bench

open ring_buffer

/-! ## Arithmetic of the circular run -/

/-- The slot reached `k` records after `deq`, for `k` below the capacity. -/
theorem mod_add_lt_cap (cap deq k : Nat) (hc : 0 < cap) (hk : k < cap) :
    (deq + k) % cap =
      if deq % cap + k < cap then deq % cap + k else deq % cap + k - cap := by
  have hh : deq % cap < cap := Nat.mod_lt _ hc
  rw [Nat.add_mod, Nat.mod_eq_of_lt hk]
  split
  · next h => exact Nat.mod_eq_of_lt h
  · next h =>
    rw [Nat.mod_eq_sub_mod (by omega)]
    exact Nat.mod_eq_of_lt (by omega)

/-- With `1 ≤ enq - deq ≤ cap`, the records between the head slot and the tail
slot are exactly the `enq - deq` records not yet flushed, in both shapes of
the run. -/
theorem span_records (cap deq enq : Nat) (h1 : deq < enq) (h2 : enq - deq ≤ cap) :
    (deq % cap ≤ (enq - 1) % cap → (enq - 1) % cap - deq % cap + 1 = enq - deq) ∧
    (¬ deq % cap ≤ (enq - 1) % cap →
      cap - deq % cap + ((enq - 1) % cap + 1) = enq - deq ∧ deq % cap < cap) := by
  have hc : 0 < cap := by omega
  have hh : deq % cap < cap := Nat.mod_lt _ hc
  have e : enq - 1 = deq + (enq - 1 - deq) := by omega
  have k := mod_add_lt_cap cap deq (enq - 1 - deq) hc (by omega)
  rw [← e] at k
  split at k <;> omega

/-! ## Field lemmas -/

@[simp] theorem copyRun_enqueued (s : ring_buffer) (h t : Nat) :
    (s.copyRun h t).2.enqueued_ = s.enqueued_ := by
  unfold copyRun; split <;> rfl

@[simp] theorem copyRun_max_ram_depth (s : ring_buffer) (h t : Nat) :
    (s.copyRun h t).2.max_ram_depth_ = s.max_ram_depth_ := by
  unfold copyRun; split <;> rfl

@[simp] theorem copyRun_type_size (s : ring_buffer) (h t : Nat) :
    (s.copyRun h t).2.type_size_ = s.type_size_ := by
  unfold copyRun; split <;> rfl

@[simp] theorem copyRun_min_consume_depth (s : ring_buffer) (h t : Nat) :
    (s.copyRun h t).2.min_consume_depth_ = s.min_consume_depth_ := by
  unfold copyRun; split <;> rfl

@[simp] theorem copyRun_ram_queue (s : ring_buffer) (h t : Nat) :
    (s.copyRun h t).2.ram_queue_ = s.ram_queue_ := by
  unfold copyRun; split <;> rfl

@[simp] theorem copyRun_max_pmem_depth (s : ring_buffer) (h t : Nat) :
    (s.copyRun h t).2.max_pmem_depth_ = s.max_pmem_depth_ := by
  unfold copyRun; split <;> rfl

/-- The durable region after a `copyRun` that does not wrap. -/
theorem copyRun_pmem_of_le (s : ring_buffer) (h t : Nat) (hle : h ≤ t) :
    (s.copyRun h t).2.pmem_queue_ =
      memcpy s.pmem_queue_ (s.OFF s.dequeued_) s.ram_queue_ (s.OFF h)
        (((t - h + 1) * s.type_size_) % 2 ^ 64) := by
  unfold copyRun; rw [if_pos hle]

/-- The copies of a `copyRun` that does not wrap. -/
theorem copyRun_copies_of_le (s : ring_buffer) (h t : Nat) (hle : h ≤ t) :
    (s.copyRun h t).1 =
      [⟨s.OFF s.dequeued_, s.OFF h, ((t - h + 1) * s.type_size_) % 2 ^ 64⟩] := by
  unfold copyRun; rw [if_pos hle]

theorem OFF_lt (s : ring_buffer) (i : Nat) : s.OFF i < 2 ^ 32 :=
  Nat.mod_lt _ (by decide)

/-- Under the invariant the copying part advances `dequeued_` to
`enqueued_`. -/
theorem copyRun_dequeued (s : ring_buffer) (hw : s.enqueued_ < 2 ^ 64)
    (h1 : s.dequeued_ < s.enqueued_)
    (h2 : s.enqueued_ - s.dequeued_ ≤ s.max_ram_depth_) :
    (s.copyRun (s.dequeued_ % s.max_ram_depth_)
      ((s.enqueued_ - 1) % s.max_ram_depth_)).2.dequeued_ = s.enqueued_ := by
  obtain ⟨ha, hb⟩ := span_records s.max_ram_depth_ s.dequeued_ s.enqueued_ h1 h2
  unfold copyRun
  split
  · next h =>
    have := ha h
    show (s.dequeued_ + _) % 2 ^ 64 = _
    rw [this, Nat.mod_eq_of_lt (by omega)]; omega
  · next h =>
    obtain ⟨e, hlt⟩ := hb h
    show ((s.dequeued_ + _) % 2 ^ 64 + _) % 2 ^ 64 = _
    rw [Nat.mod_eq_of_lt (by omega), Nat.mod_eq_of_lt (by omega)]; omega

/-- The depth of a queue whose counters satisfy `dequeued_ ≤ enqueued_`. -/
theorem GetDepth_eq (s : ring_buffer) (hw : s.enqueued_ < 2 ^ 64)
    (h : s.dequeued_ ≤ s.enqueued_) : s.GetDepth = s.enqueued_ - s.dequeued_ := by
  unfold GetDepth; omega

/-- A `Consume` that is neither held back by the threshold nor finds the queue
empty returns `true` under the invariant, with the state `copyRun` leaves. -/
theorem Consume_flush (s : ring_buffer) (force : Bool) (hw : s.enqueued_ < 2 ^ 64)
    (hi : s.Inv) (hd : s.dequeued_ < s.enqueued_)
    (hf : force = true ∨ s.min_consume_depth_ ≤ s.enqueued_ - s.dequeued_) :
    s.Consume force = .ok ⟨true,
      (s.copyRun (s.dequeued_ % s.max_ram_depth_) ((s.enqueued_ - 1) % s.max_ram_depth_)).1,
      (s.copyRun (s.dequeued_ % s.max_ram_depth_) ((s.enqueued_ - 1) % s.max_ram_depth_)).2⟩ := by
  obtain ⟨i1, i2⟩ := hi
  have hdep : (s.enqueued_ + 2 ^ 64 - s.dequeued_) % 2 ^ 64 = s.enqueued_ - s.dequeued_ := by
    omega
  have htl : (s.enqueued_ + 2 ^ 64 - 1) % 2 ^ 64 = s.enqueued_ - 1 := by omega
  have hdq := copyRun_dequeued s hw hd i2
  unfold Consume
  simp only [hdep, htl]
  rw [if_neg, if_neg (by omega), if_neg (by omega), if_neg]
  · rw [hdq]; simp; omega
  · rintro ⟨hf1, hf2⟩
    rcases hf with hf | hf
    · rw [hf] at hf1; cases hf1
    · omega

/-! ## Single calls -/

/-- On a full queue `Enqueue` returns `false` and changes nothing. -/
theorem Enqueue_refuse (s : ring_buffer) (nonce : Nat)
    (h : s.max_ram_depth_ ≤ s.GetDepth) : s.Enqueue nonce = (false, s) := by
  unfold Enqueue; rw [if_pos h]

/-- The result of `Enqueue` on a queue that is not full. -/
theorem Enqueue_accept (s : ring_buffer) (nonce : Nat)
    (h : s.GetDepth < s.max_ram_depth_) :
    s.Enqueue nonce = (true, { s with
      ram_queue_ := memset s.ram_queue_ (s.OFF (s.enqueued_ % s.max_ram_depth_)) nonce s.type_size_
      enqueued_ := (s.enqueued_ + 1) % 2 ^ 64 }) := by
  unfold Enqueue; rw [if_neg (by omega)]

/-- The result of `OFF` is the byte offset of record `i` as long as that offset
fits 32 bits. -/
theorem OFF_exact (s : ring_buffer) (i : Nat) (hts : 0 < s.type_size_)
    (h : i * s.type_size_ < 2 ^ 32) : s.OFF i = i * s.type_size_ := by
  have hi : i ≤ i * s.type_size_ := Nat.le_mul_of_pos_right i hts
  have hi' : i % 2 ^ 32 = i := Nat.mod_eq_of_lt (by omega)
  unfold OFF
  rw [hi', Nat.mod_eq_of_lt h]

/-- On a queue that is not full and whose staging region is at most `2 ^ 32`
bytes long, `Enqueue` fills the `type_size_` bytes from offset
`(enqueued_ % max_ram_depth_) * type_size_` on, adds one to `enqueued_` and
leaves the rest of the state. -/
theorem Enqueue_slot_while_OFF_exact (s : ring_buffer) (nonce : Nat)
    (hts : 0 < s.type_size_) (hcap : s.max_ram_depth_ * s.type_size_ ≤ 2 ^ 32)
    (h : s.GetDepth < s.max_ram_depth_) :
    s.Enqueue nonce = (true, { s with
      ram_queue_ := memset s.ram_queue_
        (s.enqueued_ % s.max_ram_depth_ * s.type_size_) nonce s.type_size_
      enqueued_ := (s.enqueued_ + 1) % 2 ^ 64 }) := by
  have hslot : s.enqueued_ % s.max_ram_depth_ < s.max_ram_depth_ :=
    Nat.mod_lt _ (by omega)
  have e := Nat.mul_le_mul_right s.type_size_ (Nat.succ_le_of_lt hslot)
  rw [Nat.succ_mul] at e
  rw [Enqueue_accept s nonce h, OFF_exact s _ hts (by omega)]

/-- A `Consume` held back by the threshold, or finding the queue empty, returns
`false`, copies nothing and leaves the queue as it was. -/
theorem Consume_noop (s : ring_buffer) (force : Bool)
    (h : (force = false ∧ s.GetDepth < s.min_consume_depth_) ∨ s.GetDepth = 0) :
    s.Consume force = .ok ⟨false, [], s⟩ := by
  unfold GetDepth at h
  unfold Consume
  by_cases h1 : force = false ∧
      (s.enqueued_ + 2 ^ 64 - s.dequeued_) % 2 ^ 64 < s.min_consume_depth_
  · simp only [h1, and_self, if_true]
  · rcases h with h | h
    · exact absurd h h1
    · simp only [h1, if_false, h, if_true, ite_self]

/-! ## Sequences of calls -/

theorem execAll_append (r : Run) (a b : List Op) :
    execAll r (a ++ b) =
      match execAll r a with
      | .error f => .error f
      | .ok r' => execAll r' b := by
  induction a generalizing r with
  | nil => rfl
  | cons op a ih =>
    simp only [List.cons_append, execAll]
    cases exec r op with
    | error f => rfl
    | ok r' => exact ih r'

theorem enqueueCalls_cons (op : Op) (ops : List Op) :
    enqueueCalls (op :: ops) = op.enqueues + enqueueCalls ops := by
  simp [enqueueCalls]

theorem enqueues_le_one (op : Op) : op.enqueues ≤ 1 := by
  cases op <;> simp [Op.enqueues]

theorem enqueueCalls_le_length (ops : List Op) : enqueueCalls ops ≤ ops.length := by
  induction ops with
  | nil => exact Nat.le_refl _
  | cons op ops ih =>
    have := enqueues_le_one op
    rw [enqueueCalls_cons, List.length_cons]
    omega

theorem enqueueCalls_append (a b : List Op) :
    enqueueCalls (a ++ b) = enqueueCalls a + enqueueCalls b := by
  simp [enqueueCalls]

/-- One call keeps the invariant while `enqueued_` cannot wrap, and only an
`Enqueue` moves `enqueued_` up, by at most one. -/
theorem exec_inv (r : Run) (op : Op) (hi : r.rbuf.Inv)
    (hw0 : r.rbuf.enqueued_ + op.enqueues < 2 ^ 64) :
    ∃ r', exec r op = .ok r' ∧ r'.rbuf.Inv ∧
      r'.rbuf.enqueued_ ≤ r.rbuf.enqueued_ + op.enqueues := by
  obtain ⟨i1, i2⟩ := hi
  have hdep := GetDepth_eq r.rbuf (by omega) i1
  cases op with
  | SetThresh t => exact ⟨_, rfl, ⟨i1, i2⟩, Nat.le_refl _⟩
  | Reset => exact ⟨_, rfl, ⟨Nat.le_refl _, Nat.zero_le _⟩, Nat.zero_le _⟩
  | Enqueue nonce =>
    have hw : r.rbuf.enqueued_ + 1 < 2 ^ 64 := hw0
    show ∃ r', exec r (.Enqueue nonce) = .ok r' ∧ r'.rbuf.Inv ∧
      r'.rbuf.enqueued_ ≤ r.rbuf.enqueued_ + 1
    by_cases hfull : r.rbuf.max_ram_depth_ ≤ r.rbuf.GetDepth
    · refine ⟨{ r with refused := r.refused + 1 }, ?_, ⟨i1, i2⟩, Nat.le_succ _⟩
      simp [exec, Enqueue_refuse _ _ hfull]
    · have hlt : r.rbuf.GetDepth < r.rbuf.max_ram_depth_ := by omega
      refine ⟨{ r with
        rbuf := (r.rbuf.Enqueue nonce).2
        accepted := r.accepted + 1
        log := r.log ++ [nonce] }, ?_, ?_, ?_⟩
      · simp [exec, Enqueue_accept _ _ hlt]
      · rw [Enqueue_accept _ _ hlt]
        show r.rbuf.dequeued_ ≤ (r.rbuf.enqueued_ + 1) % 2 ^ 64 ∧
          (r.rbuf.enqueued_ + 1) % 2 ^ 64 - r.rbuf.dequeued_ ≤ r.rbuf.max_ram_depth_
        rw [Nat.mod_eq_of_lt hw]; omega
      · rw [Enqueue_accept _ _ hlt]
        show (r.rbuf.enqueued_ + 1) % 2 ^ 64 ≤ _
        rw [Nat.mod_eq_of_lt hw]
  | Consume force =>
    by_cases hn : (force = false ∧ r.rbuf.GetDepth < r.rbuf.min_consume_depth_) ∨
        r.rbuf.GetDepth = 0
    · refine ⟨r, ?_, ⟨i1, i2⟩, Nat.le_refl _⟩
      simp [exec, Consume_noop _ _ hn]
    · have hd : r.rbuf.dequeued_ < r.rbuf.enqueued_ := by omega
      have hf : force = true ∨
          r.rbuf.min_consume_depth_ ≤ r.rbuf.enqueued_ - r.rbuf.dequeued_ := by
        cases force with
        | true => exact Or.inl rfl
        | false => right; rw [← hdep]; simp at hn; exact hn.1
      have hc := Consume_flush r.rbuf force (by omega) ⟨i1, i2⟩ hd hf
      have hq := copyRun_dequeued r.rbuf (by omega) hd i2
      refine ⟨_, (by simp only [exec, hc]; rfl), ⟨?_, ?_⟩, ?_⟩
      · show (copyRun _ _ _).2.dequeued_ ≤ (copyRun _ _ _).2.enqueued_
        rw [hq, copyRun_enqueued]
      · show (copyRun _ _ _).2.enqueued_ - (copyRun _ _ _).2.dequeued_ ≤
          (copyRun _ _ _).2.max_ram_depth_
        rw [hq, copyRun_enqueued]; omega
      · show (copyRun _ _ _).2.enqueued_ ≤ r.rbuf.enqueued_ + 0
        rw [copyRun_enqueued]; omega

theorem pairs_enqueueCalls (n : Nat) : enqueueCalls (pairs n) = n := by
  induction n with
  | zero => rfl
  | succ n ih =>
    show enqueueCalls (.Enqueue 0 :: .Consume true :: pairs n) = n + 1
    rw [enqueueCalls_cons, enqueueCalls_cons, ih]
    show 1 + (0 + n) = n + 1
    omega

/-- A sequence of calls keeps the invariant while `enqueued_` cannot wrap. -/
theorem execAll_inv (ops : List Op) (r : Run) (hi : r.rbuf.Inv)
    (hw : r.rbuf.enqueued_ + enqueueCalls ops < 2 ^ 64) :
    ∃ r', execAll r ops = .ok r' ∧ r'.rbuf.Inv ∧
      r'.rbuf.enqueued_ ≤ r.rbuf.enqueued_ + enqueueCalls ops := by
  induction ops generalizing r with
  | nil => exact ⟨r, rfl, hi, Nat.le_refl _⟩
  | cons op ops ih =>
    rw [enqueueCalls_cons] at hw ⊢
    obtain ⟨r1, e1, i1, b1⟩ := exec_inv r op hi (by omega)
    obtain ⟨r2, e2, i2, b2⟩ := ih r1 i1 (by omega)
    refine ⟨r2, ?_, i2, by omega⟩
    simp only [execAll, e1, e2]

/-- With a record size that is not zero `Init` returns `true` and leaves both
counters at zero. -/
theorem Init_ok (s0 : ring_buffer) (type_size : Nat) (ram_region : Nat → Nat)
    (ram_region_size : Nat) (pmem_region : Nat → Nat) (pmem_region_size : Nat)
    (consume_thresh : ℚ) (hts : 0 < type_size) :
    ∃ s, s0.Init type_size ram_region ram_region_size pmem_region pmem_region_size
        consume_thresh = .ok (true, s) ∧
      s.enqueued_ = 0 ∧ s.dequeued_ = 0 ∧ s.type_size_ = type_size ∧
      s.max_ram_depth_ = ram_region_size / type_size ∧
      s.max_pmem_depth_ = pmem_region_size / type_size ∧
      s.ram_queue_ = ram_region ∧ s.pmem_queue_ = pmem_region ∧
      s.ram_region_size_ = ram_region_size ∧ s.pmem_region_size_ = pmem_region_size := by
  have h : type_size ≠ 0 := by omega
  simp only [Init, SetTypeSize, if_neg h]
  exact ⟨_, rfl, rfl, rfl, rfl, rfl, rfl, rfl, rfl, rfl, rfl⟩

/-- The queue `Init` builds has a record size that is not zero and a staging
capacity whose byte length is at most the size of the staging region. -/
theorem Init_fits (s0 s : ring_buffer) (type_size : Nat) (ram_region : Nat → Nat)
    (ram_region_size : Nat) (pmem_region : Nat → Nat) (pmem_region_size : Nat)
    (consume_thresh : ℚ)
    (h : s0.Init type_size ram_region ram_region_size pmem_region pmem_region_size
      consume_thresh = .ok (true, s)) :
    0 < s.type_size_ ∧ s.max_ram_depth_ * s.type_size_ ≤ ram_region_size := by
  by_cases hts : type_size = 0
  · simp [Init, SetTypeSize, hts] at h
  · obtain ⟨s', hs', -, -, h3, h4, -⟩ := Init_ok s0 type_size ram_region ram_region_size
      pmem_region pmem_region_size consume_thresh (by omega)
    rw [h] at hs'
    cases hs'
    rw [h3, h4]
    exact ⟨by omega, Nat.div_mul_le_self _ _⟩

/-- An accepted `Enqueue` as a step of a run. -/
theorem exec_Enqueue_accept (r : Run) (nonce : Nat)
    (h : r.rbuf.GetDepth < r.rbuf.max_ram_depth_) :
    exec r (.Enqueue nonce) = .ok { r with
      rbuf := { r.rbuf with
        ram_queue_ := memset r.rbuf.ram_queue_
          (r.rbuf.OFF (r.rbuf.enqueued_ % r.rbuf.max_ram_depth_)) nonce r.rbuf.type_size_
        enqueued_ := (r.rbuf.enqueued_ + 1) % 2 ^ 64 }
      accepted := r.accepted + 1
      log := r.log ++ [nonce] } := by
  simp [exec, Enqueue_accept _ _ h]

/-- The counters and the capacity after an accepted `Enqueue`. -/
theorem exec_Enqueue_accept_fields (r : Run) (nonce : Nat)
    (h : r.rbuf.GetDepth < r.rbuf.max_ram_depth_) :
    ∃ r', exec r (.Enqueue nonce) = .ok r' ∧
      r'.rbuf.enqueued_ = (r.rbuf.enqueued_ + 1) % 2 ^ 64 ∧
      r'.rbuf.dequeued_ = r.rbuf.dequeued_ ∧
      r'.rbuf.max_ram_depth_ = r.rbuf.max_ram_depth_ ∧
      r'.copies = r.copies :=
  ⟨_, exec_Enqueue_accept r nonce h, rfl, rfl, rfl, rfl⟩

/-- A refused `Enqueue` as a step of a run. -/
theorem exec_Enqueue_refuse (r : Run) (nonce : Nat)
    (h : r.rbuf.max_ram_depth_ ≤ r.rbuf.GetDepth) :
    exec r (.Enqueue nonce) = .ok { r with refused := r.refused + 1 } := by
  simp [exec, Enqueue_refuse _ _ h]

/-- A flushing `Consume` as a step of a run. -/
theorem exec_Consume_flush (r : Run) (force : Bool) (hw : r.rbuf.enqueued_ < 2 ^ 64)
    (hi : r.rbuf.Inv) (hd : r.rbuf.dequeued_ < r.rbuf.enqueued_)
    (hf : force = true ∨ r.rbuf.min_consume_depth_ ≤ r.rbuf.enqueued_ - r.rbuf.dequeued_) :
    exec r (.Consume force) = .ok { r with
      rbuf := (r.rbuf.copyRun (r.rbuf.dequeued_ % r.rbuf.max_ram_depth_)
        ((r.rbuf.enqueued_ - 1) % r.rbuf.max_ram_depth_)).2
      copies := r.copies ++ (r.rbuf.copyRun (r.rbuf.dequeued_ % r.rbuf.max_ram_depth_)
        ((r.rbuf.enqueued_ - 1) % r.rbuf.max_ram_depth_)).1 } := by
  simp only [exec, Consume_flush r.rbuf force hw hi hd hf]

/-- Running `pairs n` on an empty queue of capacity at least one moves both
counters up by `n`, as long as `enqueued_` does not wrap. Each of its copies
is one record long and starts below `2 ^ 32`. -/
theorem pairs_run (n : Nat) (r : Run) (hc : 0 < r.rbuf.max_ram_depth_)
    (he : r.rbuf.dequeued_ = r.rbuf.enqueued_) (hw : r.rbuf.enqueued_ + n < 2 ^ 64) :
    ∃ r', execAll r (pairs n) = .ok r' ∧
      r'.rbuf.enqueued_ = r.rbuf.enqueued_ + n ∧
      r'.rbuf.dequeued_ = r.rbuf.enqueued_ + n ∧
      r'.rbuf.max_ram_depth_ = r.rbuf.max_ram_depth_ ∧
      r'.rbuf.type_size_ = r.rbuf.type_size_ ∧
      ∀ c ∈ r'.copies, c ∈ r.copies ∨ (c.dst < 2 ^ 32 ∧ c.len ≤ r.rbuf.type_size_) := by
  induction n generalizing r with
  | zero => exact ⟨r, rfl, rfl, he, rfl, rfl, fun c hc => Or.inl hc⟩
  | succ n ih =>
    have hdep : r.rbuf.GetDepth < r.rbuf.max_ram_depth_ := by
      rw [GetDepth_eq _ (by omega) (by omega)]; omega
    have e1 := exec_Enqueue_accept r 0 hdep
    have hm : (r.rbuf.enqueued_ + 1) % 2 ^ 64 = r.rbuf.enqueued_ + 1 :=
      Nat.mod_eq_of_lt (by omega)
    rw [hm] at e1
    generalize hr1 : ({ r with
      rbuf := { r.rbuf with
        ram_queue_ := memset r.rbuf.ram_queue_
          (r.rbuf.OFF (r.rbuf.enqueued_ % r.rbuf.max_ram_depth_)) 0 r.rbuf.type_size_
        enqueued_ := r.rbuf.enqueued_ + 1 }
      accepted := r.accepted + 1
      log := r.log ++ [0] } : Run) = r1 at e1
    have f1 : r1.rbuf.enqueued_ = r.rbuf.enqueued_ + 1 := by rw [← hr1]
    have f2 : r1.rbuf.dequeued_ = r.rbuf.dequeued_ := by rw [← hr1]
    have f3 : r1.rbuf.max_ram_depth_ = r.rbuf.max_ram_depth_ := by rw [← hr1]
    have f4 : r1.rbuf.type_size_ = r.rbuf.type_size_ := by rw [← hr1]
    have f5 : r1.copies = r.copies := by rw [← hr1]
    have hi1 : r1.rbuf.Inv := ⟨by omega, by omega⟩
    have e2 := exec_Consume_flush r1 true (by omega) hi1 (by omega) (Or.inl rfl)
    have hq := copyRun_dequeued r1.rbuf (by omega) (by omega) hi1.2
    have hone : r1.rbuf.enqueued_ - 1 = r1.rbuf.dequeued_ := by omega
    have hcp := copyRun_copies_of_le r1.rbuf (r1.rbuf.dequeued_ % r1.rbuf.max_ram_depth_)
      ((r1.rbuf.enqueued_ - 1) % r1.rbuf.max_ram_depth_) (by rw [hone])
    rw [hone, Nat.sub_self, Nat.zero_add, Nat.one_mul] at hcp
    generalize hr2 : ({ r1 with
      rbuf := (r1.rbuf.copyRun (r1.rbuf.dequeued_ % r1.rbuf.max_ram_depth_)
        ((r1.rbuf.enqueued_ - 1) % r1.rbuf.max_ram_depth_)).2
      copies := r1.copies ++ (r1.rbuf.copyRun (r1.rbuf.dequeued_ % r1.rbuf.max_ram_depth_)
        ((r1.rbuf.enqueued_ - 1) % r1.rbuf.max_ram_depth_)).1 } : Run) = r2 at e2
    have g1 : r2.rbuf.enqueued_ = r1.rbuf.enqueued_ := by rw [← hr2]; exact copyRun_enqueued _ _ _
    have g2 : r2.rbuf.dequeued_ = r1.rbuf.enqueued_ := by rw [← hr2]; exact hq
    have g3 : r2.rbuf.max_ram_depth_ = r1.rbuf.max_ram_depth_ := by
      rw [← hr2]; exact copyRun_max_ram_depth _ _ _
    have g4 : r2.rbuf.type_size_ = r1.rbuf.type_size_ := by
      rw [← hr2]; exact copyRun_type_size _ _ _
    have g5 : r2.copies = r1.copies ++
        [⟨r1.rbuf.OFF r1.rbuf.dequeued_,
          r1.rbuf.OFF (r1.rbuf.dequeued_ % r1.rbuf.max_ram_depth_),
          r1.rbuf.type_size_ % 2 ^ 64⟩] := by
      rw [← hr2]
      show r1.copies ++ (copyRun _ _ _).1 = _
      rw [hone, hcp]
    obtain ⟨r3, e3, k1, k2, k3, k4, k5⟩ := ih r2 (by omega) (by omega) (by omega)
    refine ⟨r3, ?_, by omega, by omega, by omega, by omega, ?_⟩
    · simp only [pairs, execAll, e1, e2, e3]
    · intro c hc3
      rcases k5 c hc3 with h | h
      · rw [g5, List.mem_append, List.mem_singleton] at h
        rcases h with h | h
        · left; rw [← f5]; exact h
        · right
          rw [h]
          exact ⟨OFF_lt _ _, by rw [f4]; exact Nat.mod_le _ _⟩
      · right; rw [g4, f4] at h; exact h

/-! ## The counters of reachable states -/

/-- C1, as amended: every state reached from `Init` (record size not zero) by
a finite sequence of `SetThresh`, `Enqueue`, `Consume` and `Reset` calls,
executed one at a time, of which fewer than `2 ^ 64` are `Enqueue` calls, is
reached without a fault and has `dequeued_ ≤ enqueued_` and
`enqueued_ - dequeued_ ≤ max_ram_depth_`. -/
theorem reachable_invariant_below_wrap (s0 : ring_buffer) (type_size : Nat)
    (ram_region : Nat → Nat) (ram_region_size : Nat) (pmem_region : Nat → Nat)
    (pmem_region_size : Nat) (consume_thresh : ℚ) (ops : List Op)
    (hts : 0 < type_size) (hlen : enqueueCalls ops < 2 ^ 64) :
    ∃ s r, s0.Init type_size ram_region ram_region_size pmem_region pmem_region_size
        consume_thresh = .ok (true, s) ∧
      execAll (Run.start s) ops = .ok r ∧
      r.rbuf.dequeued_ ≤ r.rbuf.enqueued_ ∧
      r.rbuf.enqueued_ - r.rbuf.dequeued_ ≤ r.rbuf.max_ram_depth_ := by
  obtain ⟨s, hs, he, hd, -⟩ := Init_ok s0 type_size ram_region ram_region_size
    pmem_region pmem_region_size consume_thresh hts
  have hi : (Run.start s).rbuf.Inv := by
    show s.dequeued_ ≤ s.enqueued_ ∧ s.enqueued_ - s.dequeued_ ≤ s.max_ram_depth_
    rw [he, hd]; exact ⟨Nat.le_refl _, Nat.zero_le _⟩
  have hw : (Run.start s).rbuf.enqueued_ + enqueueCalls ops < 2 ^ 64 := by
    show s.enqueued_ + enqueueCalls ops < 2 ^ 64
    rw [he]; omega
  obtain ⟨r, hr, ⟨i1, i2⟩, -⟩ := execAll_inv ops (Run.start s) hi hw
  exact ⟨s, r, hs, hr, i1, i2⟩

/-- The amended C1 at a queue of four one-byte slots over eight durable bytes,
for ten calls: five `Enqueue`, a threshold change, a non-forced `Consume`, one
more `Enqueue`, a forced `Consume` and a `Reset`. -/
theorem reachable_invariant_below_wrap_witness :
    ∃ s r, blank.Init 1 (fun _ => 0) 4 (fun _ => 0) 8 0 = .ok (true, s) ∧
      execAll (Run.start s)
        [.Enqueue 1, .Enqueue 2, .Enqueue 3, .Enqueue 4, .Enqueue 5,
         .SetThresh (1 / 2), .Consume false, .Enqueue 6, .Consume true, .Reset] = .ok r ∧
      r.rbuf.dequeued_ ≤ r.rbuf.enqueued_ ∧
      r.rbuf.enqueued_ - r.rbuf.dequeued_ ≤ r.rbuf.max_ram_depth_ :=
  reachable_invariant_below_wrap blank 1 (fun _ => 0) 4 (fun _ => 0) 8 0 _
    (by decide) (by decide)

/-- C1 fails as stated: on a queue of three one-byte slots over a durable
region of `2 ^ 32` bytes, `2 ^ 64 - 1` rounds of `Enqueue(0), Consume(true)`
followed by one more `Enqueue(0)`, `2 ^ 64` calls of `Enqueue` in all, all
return, every copy they make lies inside the durable region, and they leave
`enqueued_ = 0` below `dequeued_ = 2 ^ 64 - 1`: the increment of `enqueued_`
has wrapped. -/
theorem reachable_invariant_fails_at_wrap :
    enqueueCalls (pairs (2 ^ 64 - 1) ++ [.Enqueue 0]) = 2 ^ 64 ∧
    ∃ s r, blank.Init 1 (fun _ => 0) 3 (fun _ => 0) (2 ^ 32) 0 = .ok (true, s) ∧
      execAll (Run.start s) (pairs (2 ^ 64 - 1) ++ [.Enqueue 0]) = .ok r ∧
      (∀ c ∈ r.copies, c.dst + c.len ≤ s.pmem_region_size_) ∧
      r.rbuf.enqueued_ = 0 ∧ r.rbuf.dequeued_ = 2 ^ 64 - 1 ∧
      ¬ r.rbuf.dequeued_ ≤ r.rbuf.enqueued_ := by
  refine ⟨by rw [enqueueCalls_append, pairs_enqueueCalls]; rfl, ?_⟩
  obtain ⟨s, hs, he, hd, hts, hc, -, -, -, -, hps⟩ :=
    Init_ok blank 1 (fun _ => 0) 3 (fun _ => 0) (2 ^ 32) 0 (by decide)
  have hc3 : s.max_ram_depth_ = 3 := by rw [hc]
  obtain ⟨r1, e1, a1, a2, a3, -, a5⟩ := pairs_run (2 ^ 64 - 1) (Run.start s)
    (by show 0 < s.max_ram_depth_; omega)
    (by show s.dequeued_ = s.enqueued_; omega)
    (by show s.enqueued_ + (2 ^ 64 - 1) < 2 ^ 64; omega)
  have b1 : r1.rbuf.enqueued_ = 2 ^ 64 - 1 := by
    rw [a1]; show s.enqueued_ + _ = _; omega
  have b2 : r1.rbuf.dequeued_ = 2 ^ 64 - 1 := by
    rw [a2]; show s.enqueued_ + _ = _; omega
  have b3 : r1.rbuf.max_ram_depth_ = 3 := by rw [a3]; exact hc3
  have hdep : r1.rbuf.GetDepth < r1.rbuf.max_ram_depth_ := by
    unfold GetDepth; omega
  obtain ⟨r2, e2, c1, c2, -, c4⟩ := exec_Enqueue_accept_fields r1 0 hdep
  refine ⟨s, r2, hs, ?_, ?_, by omega, by omega, by omega⟩
  · rw [execAll_append, e1]
    simp only [execAll, e2]
  · intro c hc
    rw [c4] at hc
    rcases a5 c hc with h | h
    · cases h
    · have : (Run.start s).rbuf.type_size_ = 1 := hts
      omega

/-! ## Single calls on arbitrary states -/

/-- C2, at the failing input `wideQueue`: the queue is well formed, satisfies
the invariant and is not full; `Enqueue(7)` returns `true`, the slot index is
`enqueued_ % max_ram_depth_ = 2 ^ 30`, whose bytes start at offset
`2 ^ 30 * 4 = 2 ^ 32`, yet the four bytes written are those at offsets 0 to 3,
the bytes of slot 0, and the bytes of slot `2 ^ 30` keep their old value. -/
theorem Enqueue_writes_truncated_offset :
    wideQueue.WF ∧ wideQueue.Inv ∧ wideQueue.GetDepth < wideQueue.max_ram_depth_ ∧
    (wideQueue.Enqueue 7).1 = true ∧
    wideQueue.enqueued_ % wideQueue.max_ram_depth_ = 2 ^ 30 ∧
    wideQueue.OFF (2 ^ 30) = 0 ∧
    (wideQueue.Enqueue 7).2.ram_queue_ 0 = 7 ∧
    (wideQueue.Enqueue 7).2.ram_queue_ 3 = 7 ∧
    (wideQueue.Enqueue 7).2.ram_queue_ (2 ^ 32) = wideQueue.ram_queue_ (2 ^ 32) ∧
    (wideQueue.Enqueue 7).2.ram_queue_ (2 ^ 32 + 3) = wideQueue.ram_queue_ (2 ^ 32 + 3) := by
  decide

/-- C3, at the failing input `longQueue`: the queue is well formed and
satisfies the invariant with depth 1; `Consume(true)` returns `true` and
advances `dequeued_` by one, but its single copy goes to byte offset 0 of the
durable region, not to `dequeued_ * type_size_ = 2 ^ 32`: the record lands on
the bytes of record 0 and the bytes at `2 ^ 32` stay as they were. -/
theorem Consume_copies_to_truncated_offset :
    longQueue.WF ∧ longQueue.Inv ∧ longQueue.GetDepth = 1 ∧
    longQueue.dequeued_ * longQueue.type_size_ = 2 ^ 32 ∧
    ∃ c, longQueue.Consume true = .ok c ∧ c.ret = true ∧
      c.copies = [⟨0, 0, 4⟩] ∧
      c.rbuf.dequeued_ = longQueue.dequeued_ + 1 ∧
      c.rbuf.pmem_queue_ 0 = 9 ∧
      c.rbuf.pmem_queue_ (2 ^ 32) = longQueue.pmem_queue_ (2 ^ 32) :=
  ⟨by decide, by decide, by decide, by decide, _, rfl, rfl, rfl, rfl, rfl, rfl⟩

/-- C4 fails as stated: `overfullQueue` is a well-formed state with depth 10,
so a forced `Consume` is in none of the no-op cases, yet it does not return
`true`: it copies two records and stops at the `Logic Error` check. -/
theorem Consume_stops_outside_invariant :
    overfullQueue.WF ∧ overfullQueue.GetDepth = 10 ∧
    overfullQueue.Consume true = .error .logicError :=
  ⟨by decide, by decide, rfl⟩

/-- C4, as amended. For every queue state, `Consume(force)` in the cases
(`force = false` and depth below `min_consume_depth_`) or depth zero returns
`false`, copies nothing and leaves the whole state, `dequeued_` included, as it
was. For every well-formed state that satisfies the invariant, every other
case returns `true`, with at least one copy made and `dequeued_` changed. -/
theorem Consume_noop_cases (s : ring_buffer) (force : Bool) :
    ((force = false ∧ s.GetDepth < s.min_consume_depth_) ∨ s.GetDepth = 0 →
      s.Consume force = .ok ⟨false, [], s⟩) ∧
    (s.WF → s.Inv →
      ¬ ((force = false ∧ s.GetDepth < s.min_consume_depth_) ∨ s.GetDepth = 0) →
      ∃ c, s.Consume force = .ok c ∧ c.ret = true ∧ c.copies ≠ [] ∧
        c.rbuf.dequeued_ ≠ s.dequeued_ ∧ c.rbuf.enqueued_ = s.enqueued_) := by
  refine ⟨Consume_noop s force, ?_⟩
  intro hw hi hn
  have hdep := GetDepth_eq s hw.1 hi.1
  have hd : s.dequeued_ < s.enqueued_ := by omega
  have hf : force = true ∨ s.min_consume_depth_ ≤ s.enqueued_ - s.dequeued_ := by
    cases force with
    | true => exact Or.inl rfl
    | false => right; rw [← hdep]; simp at hn; exact hn.1
  refine ⟨_, Consume_flush s force hw.1 hi hd hf, rfl, ?_, ?_, ?_⟩
  · show (copyRun _ _ _).1 ≠ []
    unfold copyRun; split <;> simp
  · show (copyRun _ _ _).2.dequeued_ ≠ _
    rw [copyRun_dequeued s hw.1 hd hi.2]; omega
  · exact copyRun_enqueued _ _ _

/-- The amended C4 at `halfQueue`: a non-forced `Consume` below the threshold
is a no-op, and a forced one, in a state that satisfies the invariant, returns
`true`. -/
theorem Consume_noop_cases_witness :
    halfQueue.Consume false = .ok ⟨false, [], halfQueue⟩ ∧
    ∃ c, halfQueue.Consume true = .ok c ∧ c.ret = true ∧ c.copies ≠ [] ∧
      c.rbuf.dequeued_ ≠ halfQueue.dequeued_ ∧ c.rbuf.enqueued_ = halfQueue.enqueued_ :=
  ⟨(Consume_noop_cases halfQueue false).1 (by decide),
   (Consume_noop_cases halfQueue true).2 (by decide) (by decide) (by decide)⟩

/-- C8 fails as stated: `SetTypeSize(2)` on `fullQueue` halves the staging
capacity to four records and leaves `enqueued_ = 8`, so the counters are not
zero and the depth exceeds the new capacity. -/
theorem SetTypeSize_keeps_counters_at_fullQueue :
    ∃ s, fullQueue.SetTypeSize 2 = .ok s ∧ s.enqueued_ = 8 ∧ s.dequeued_ = 0 ∧
      s.max_ram_depth_ = 4 ∧ ¬ s.enqueued_ - s.dequeued_ ≤ s.max_ram_depth_ :=
  ⟨_, rfl, rfl, rfl, rfl, by decide⟩

/-- C8, as amended: for every queue state and every new record size that is
not zero, `SetTypeSize` returns, the record size is the new one, the two
capacities are the region byte sizes divided by it, and everything else, both
counters included, is left as it was. -/
theorem SetTypeSize_rederives_capacities (s : ring_buffer) (type_size : Nat)
    (hts : 0 < type_size) :
    ∃ s', s.SetTypeSize type_size = .ok s' ∧
      s'.type_size_ = type_size ∧
      s'.max_ram_depth_ = s.ram_region_size_ / type_size ∧
      s'.max_pmem_depth_ = s.pmem_region_size_ / type_size ∧
      s'.enqueued_ = s.enqueued_ ∧ s'.dequeued_ = s.dequeued_ ∧
      s'.ram_region_size_ = s.ram_region_size_ ∧
      s'.pmem_region_size_ = s.pmem_region_size_ ∧
      s'.min_consume_depth_ = s.min_consume_depth_ ∧
      s'.ram_queue_ = s.ram_queue_ ∧ s'.pmem_queue_ = s.pmem_queue_ := by
  have h : type_size ≠ 0 := by omega
  simp only [SetTypeSize, if_neg h]
  exact ⟨_, rfl, rfl, rfl, rfl, rfl, rfl, rfl, rfl, rfl, rfl, rfl⟩

/-- The amended C8 at `fullQueue` and a record size of two bytes. -/
theorem SetTypeSize_rederives_capacities_witness :
    ∃ s', fullQueue.SetTypeSize 2 = .ok s' ∧
      s'.type_size_ = 2 ∧
      s'.max_ram_depth_ = fullQueue.ram_region_size_ / 2 ∧
      s'.max_pmem_depth_ = fullQueue.pmem_region_size_ / 2 ∧
      s'.enqueued_ = fullQueue.enqueued_ ∧ s'.dequeued_ = fullQueue.dequeued_ ∧
      s'.ram_region_size_ = fullQueue.ram_region_size_ ∧
      s'.pmem_region_size_ = fullQueue.pmem_region_size_ ∧
      s'.min_consume_depth_ = fullQueue.min_consume_depth_ ∧
      s'.ram_queue_ = fullQueue.ram_queue_ ∧ s'.pmem_queue_ = fullQueue.pmem_queue_ :=
  SetTypeSize_rederives_capacities fullQueue 2 (by decide)

/-! ## No record is lost -/

theorem recordsCopied_append (ts : Nat) (a b : List Copy) :
    recordsCopied ts (a ++ b) = recordsCopied ts a + recordsCopied ts b := by
  simp [recordsCopied]

/-- The byte length of `n` records, for `n` within the staging capacity, is
not reduced by the 64-bit product and divides back to `n`. -/
theorem len_div (cap ts n : Nat) (hts : 0 < ts) (hb : cap * ts < 2 ^ 64) (hn : n ≤ cap) :
    (n * ts) % 2 ^ 64 / ts = n := by
  have h : n * ts ≤ cap * ts := Nat.mul_le_mul_right ts hn
  rw [Nat.mod_eq_of_lt (by omega), Nat.mul_div_cancel _ hts]

/-- Under the invariant the copies of `copyRun` move exactly the records not
yet flushed. -/
theorem copyRun_records (s : ring_buffer) (h1 : s.dequeued_ < s.enqueued_)
    (h2 : s.enqueued_ - s.dequeued_ ≤ s.max_ram_depth_) (hts : 0 < s.type_size_)
    (hb : s.max_ram_depth_ * s.type_size_ < 2 ^ 64) :
    recordsCopied s.type_size_ (s.copyRun (s.dequeued_ % s.max_ram_depth_)
      ((s.enqueued_ - 1) % s.max_ram_depth_)).1 = s.enqueued_ - s.dequeued_ := by
  obtain ⟨ha, hb'⟩ := span_records s.max_ram_depth_ s.dequeued_ s.enqueued_ h1 h2
  have hc : 0 < s.max_ram_depth_ := by omega
  have ht : (s.enqueued_ - 1) % s.max_ram_depth_ < s.max_ram_depth_ := Nat.mod_lt _ hc
  unfold copyRun
  split
  · next h =>
    have e := ha h
    simp only [recordsCopied, List.map_cons, List.map_nil, List.sum_cons, List.sum_nil,
      Nat.add_zero]
    rw [len_div s.max_ram_depth_ s.type_size_ _ hts hb (by omega)]
    exact e
  · next h =>
    obtain ⟨e, hlt⟩ := hb' h
    simp only [recordsCopied, List.map_cons, List.map_nil, List.sum_cons, List.sum_nil,
      Nat.add_zero]
    rw [len_div s.max_ram_depth_ s.type_size_ _ hts hb (by omega),
      len_div s.max_ram_depth_ s.type_size_ _ hts hb (by omega)]
    exact e

/-- One `Enqueue` or `Consume` keeps the bookkeeping of a run while
`enqueued_` cannot wrap. -/
theorem exec_tracked (r : Run) (op : Op) (hq : op.isQueueCall = true) (ht : r.Tracked)
    (hw0 : r.rbuf.enqueued_ + op.enqueues < 2 ^ 64) :
    ∃ r', exec r op = .ok r' ∧ r'.Tracked ∧
      r'.rbuf.enqueued_ ≤ r.rbuf.enqueued_ + op.enqueues ∧
      r'.rbuf.type_size_ = r.rbuf.type_size_ := by
  obtain ⟨⟨i1, i2⟩, t1, t2, t3, t4⟩ := ht
  have hdep := GetDepth_eq r.rbuf (by omega) i1
  cases op with
  | SetThresh t => cases hq
  | Reset => cases hq
  | Enqueue nonce =>
    have hw : r.rbuf.enqueued_ + 1 < 2 ^ 64 := hw0
    show ∃ r', exec r (.Enqueue nonce) = .ok r' ∧ r'.Tracked ∧
      r'.rbuf.enqueued_ ≤ r.rbuf.enqueued_ + 1 ∧ r'.rbuf.type_size_ = r.rbuf.type_size_
    by_cases hfull : r.rbuf.max_ram_depth_ ≤ r.rbuf.GetDepth
    · exact ⟨_, exec_Enqueue_refuse r nonce hfull, ⟨⟨i1, i2⟩, t1, t2, t3, t4⟩,
        Nat.le_succ _, rfl⟩
    · have hlt : r.rbuf.GetDepth < r.rbuf.max_ram_depth_ := by omega
      have hm : (r.rbuf.enqueued_ + 1) % 2 ^ 64 = r.rbuf.enqueued_ + 1 :=
        Nat.mod_eq_of_lt hw
      refine ⟨_, exec_Enqueue_accept r nonce hlt, ⟨⟨?_, ?_⟩, ?_, t2, t3, t4⟩, ?_, rfl⟩
      · show r.rbuf.dequeued_ ≤ (r.rbuf.enqueued_ + 1) % 2 ^ 64
        omega
      · show (r.rbuf.enqueued_ + 1) % 2 ^ 64 - r.rbuf.dequeued_ ≤ r.rbuf.max_ram_depth_
        omega
      · show (r.rbuf.enqueued_ + 1) % 2 ^ 64 = r.accepted + 1
        omega
      · show (r.rbuf.enqueued_ + 1) % 2 ^ 64 ≤ _
        omega
  | Consume force =>
    by_cases hn : (force = false ∧ r.rbuf.GetDepth < r.rbuf.min_consume_depth_) ∨
        r.rbuf.GetDepth = 0
    · refine ⟨r, ?_, ⟨⟨i1, i2⟩, t1, t2, t3, t4⟩, Nat.le_refl _, rfl⟩
      simp [exec, Consume_noop _ _ hn]
    · have hd : r.rbuf.dequeued_ < r.rbuf.enqueued_ := by omega
      have hf : force = true ∨
          r.rbuf.min_consume_depth_ ≤ r.rbuf.enqueued_ - r.rbuf.dequeued_ := by
        cases force with
        | true => exact Or.inl rfl
        | false => right; rw [← hdep]; simp at hn; exact hn.1
      have hc := exec_Consume_flush r force (by omega) ⟨i1, i2⟩ hd hf
      have hq' := copyRun_dequeued r.rbuf (by omega) hd i2
      have hr := copyRun_records r.rbuf hd i2 t3 t4
      refine ⟨_, hc, ⟨⟨?_, ?_⟩, ?_, ?_, ?_, ?_⟩, ?_, ?_⟩
      · show (copyRun _ _ _).2.dequeued_ ≤ (copyRun _ _ _).2.enqueued_
        rw [hq', copyRun_enqueued]
      · show (copyRun _ _ _).2.enqueued_ - (copyRun _ _ _).2.dequeued_ ≤
          (copyRun _ _ _).2.max_ram_depth_
        rw [hq', copyRun_enqueued]; omega
      · show (copyRun _ _ _).2.enqueued_ = r.accepted
        rw [copyRun_enqueued]; exact t1
      · show recordsCopied (copyRun _ _ _).2.type_size_ (r.copies ++ (copyRun _ _ _).1) =
          (copyRun _ _ _).2.dequeued_
        rw [copyRun_type_size, recordsCopied_append, hr, hq', t2]; omega
      · show 0 < (copyRun _ _ _).2.type_size_
        rw [copyRun_type_size]; exact t3
      · show (copyRun _ _ _).2.max_ram_depth_ * (copyRun _ _ _).2.type_size_ < 2 ^ 64
        rw [copyRun_type_size, copyRun_max_ram_depth]; exact t4
      · show (copyRun _ _ _).2.enqueued_ ≤ r.rbuf.enqueued_ + 0
        rw [copyRun_enqueued]; omega
      · exact copyRun_type_size _ _ _

/-- A sequence of `Enqueue` and `Consume` calls keeps the bookkeeping of a run
while `enqueued_` cannot wrap. -/
theorem execAll_tracked (ops : List Op) (r : Run)
    (hq : ∀ op ∈ ops, op.isQueueCall = true) (ht : r.Tracked)
    (hw : r.rbuf.enqueued_ + enqueueCalls ops < 2 ^ 64) :
    ∃ r', execAll r ops = .ok r' ∧ r'.Tracked ∧
      r'.rbuf.enqueued_ ≤ r.rbuf.enqueued_ + enqueueCalls ops ∧
      r'.rbuf.type_size_ = r.rbuf.type_size_ := by
  induction ops generalizing r with
  | nil => exact ⟨r, rfl, ht, Nat.le_refl _, rfl⟩
  | cons op ops ih =>
    rw [enqueueCalls_cons] at hw ⊢
    obtain ⟨r1, e1, t1, b1, c1⟩ :=
      exec_tracked r op (hq op (List.mem_cons_self _ _)) ht (by omega)
    obtain ⟨r2, e2, t2, b2, c2⟩ :=
      ih r1 (fun o ho => hq o (List.mem_cons_of_mem _ ho)) t1 (by omega)
    refine ⟨r2, ?_, t2, by omega, by rw [c2, c1]⟩
    simp only [execAll, e1, e2]

/-- A forced `Consume` at the end of a tracked run empties the queue. -/
theorem exec_forced_tracked (r : Run) (ht : r.Tracked) (hw : r.rbuf.enqueued_ < 2 ^ 64) :
    ∃ r', exec r (.Consume true) = .ok r' ∧ r'.Tracked ∧
      r'.rbuf.dequeued_ = r'.rbuf.enqueued_ ∧
      r'.rbuf.type_size_ = r.rbuf.type_size_ := by
  obtain ⟨r1, e1, t1, -, c1⟩ := exec_tracked r (.Consume true) rfl ht hw
  refine ⟨r1, e1, t1, ?_, c1⟩
  obtain ⟨⟨i1, i2⟩, -⟩ := ht
  by_cases hd : r.rbuf.dequeued_ < r.rbuf.enqueued_
  · have hc := exec_Consume_flush r true (by omega) ⟨i1, i2⟩ hd (Or.inl rfl)
    rw [hc] at e1
    cases e1
    show (copyRun _ _ _).2.dequeued_ = (copyRun _ _ _).2.enqueued_
    rw [copyRun_dequeued r.rbuf (by omega) hd i2, copyRun_enqueued]
  · have hn : (true = false ∧ r.rbuf.GetDepth < r.rbuf.min_consume_depth_) ∨
        r.rbuf.GetDepth = 0 := by
      right; rw [GetDepth_eq r.rbuf (by omega) i1]; omega
    have hc : exec r (.Consume true) = .ok r := by
      simp [exec, Consume_noop _ _ hn]
    rw [hc] at e1
    cases e1
    omega

/-- On three slots, with `enqueued_` wrapped to 1 and `dequeued_` still at
`2 ^ 64 - 1`, the head and the tail slot coincide although two records are
waiting: a forced `Consume` copies one record and stops at the
`Logic Error` check. -/
theorem Consume_after_wrap (s : ring_buffer) (h1 : s.enqueued_ = 1)
    (h2 : s.dequeued_ = 2 ^ 64 - 1) (h3 : s.max_ram_depth_ = 3) :
    s.Consume true = .error .logicError := by
  unfold Consume copyRun
  simp [h1, h2, h3]

theorem pairs_isQueueCall (n : Nat) : ∀ op ∈ pairs n, op.isQueueCall = true := by
  induction n with
  | zero => intro op h; cases h
  | succ n ih =>
    intro op h
    simp only [pairs, List.mem_cons] at h
    rcases h with h | h | h
    · rw [h]; rfl
    · rw [h]; rfl
    · exact ih op h

/-- A tracked run followed by a forced `Consume` returns from every call and
ends with an empty queue, while `enqueued_` cannot wrap. -/
theorem run_then_forced (ops : List Op) (r0 : Run)
    (hq : ∀ op ∈ ops, op.isQueueCall = true) (ht : r0.Tracked)
    (hw : r0.rbuf.enqueued_ + enqueueCalls ops < 2 ^ 64) :
    ∃ r, execAll r0 (ops ++ [.Consume true]) = .ok r ∧ r.Tracked ∧
      r.rbuf.dequeued_ = r.rbuf.enqueued_ ∧
      r.rbuf.enqueued_ ≤ r0.rbuf.enqueued_ + enqueueCalls ops ∧
      r.rbuf.type_size_ = r0.rbuf.type_size_ := by
  obtain ⟨r1, e1, t1, b1, c1⟩ := execAll_tracked ops r0 hq ht hw
  obtain ⟨r2, e2, t2, d2, c2⟩ := exec_forced_tracked r1 t1 (by omega)
  have b3 : r2.rbuf.enqueued_ = r1.rbuf.enqueued_ := by
    have i1 := t1.1.1
    by_cases hd : r1.rbuf.dequeued_ < r1.rbuf.enqueued_
    · have hc := exec_Consume_flush r1 true (by omega) t1.1 hd (Or.inl rfl)
      rw [hc] at e2
      cases e2
      exact copyRun_enqueued _ _ _
    · have hn : (true = false ∧ r1.rbuf.GetDepth < r1.rbuf.min_consume_depth_) ∨
          r1.rbuf.GetDepth = 0 := by
        right; rw [GetDepth_eq r1.rbuf (by omega) i1]; omega
      have hc : exec r1 (.Consume true) = .ok r1 := by
        simp [exec, Consume_noop _ _ hn]
      rw [hc] at e2
      cases e2
      rfl
  refine ⟨r2, ?_, t2, d2, by omega, by rw [c2, c1]⟩
  rw [execAll_append, e1]
  simp only [execAll, e2]

/-- C5, as amended: on a reset queue with a record size that is not zero and a
staging buffer whose byte length fits 64 bits, every sequence of `Enqueue` and
`Consume` calls that ends with `Consume(true)` and makes fewer than `2 ^ 64`
calls of `Enqueue` returns from every call; the records copied to the durable
region over the whole sequence are as many as the `Enqueue` calls that
returned `true`, and `dequeued_ = enqueued_`, depth zero, at the end. -/
theorem no_record_lost_below_wrap (s0 : ring_buffer) (ops : List Op)
    (hq : ∀ op ∈ ops, op.isQueueCall = true) (hts : 0 < s0.type_size_)
    (hb : s0.max_ram_depth_ * s0.type_size_ < 2 ^ 64)
    (hlen : enqueueCalls ops < 2 ^ 64) :
    ∃ r, execAll (Run.start s0.Reset) (ops ++ [.Consume true]) = .ok r ∧
      recordsCopied s0.type_size_ r.copies = r.accepted ∧
      r.rbuf.dequeued_ = r.rbuf.enqueued_ ∧ r.rbuf.GetDepth = 0 := by
  have ht : (Run.start s0.Reset).Tracked :=
    ⟨⟨Nat.le_refl _, Nat.zero_le _⟩, rfl, rfl, hts, hb⟩
  obtain ⟨r, e, t, d, b, c⟩ := run_then_forced ops (Run.start s0.Reset) hq ht
    (by show 0 + enqueueCalls ops < 2 ^ 64; omega)
  have b' : r.rbuf.enqueued_ ≤ enqueueCalls ops := by
    have : (Run.start s0.Reset).rbuf.enqueued_ = 0 := rfl
    omega
  obtain ⟨-, a1, a2, -⟩ := t
  have hts' : r.rbuf.type_size_ = s0.type_size_ := c
  refine ⟨r, e, by rw [← hts', a2, d, a1], d, ?_⟩
  unfold GetDepth
  omega

/-- The amended C5 on a queue of three two-byte slots: five records are
offered around two flushes, one of them held back by the threshold, and a
forced `Consume` ends the sequence. -/
theorem no_record_lost_below_wrap_witness :
    ∃ r, execAll (Run.start (ring_buffer.Reset ⟨5, 2, 6, 64, 3, 32, 2, 2, fun a => a, fun _ => 0⟩))
        ([.Enqueue 1, .Consume false, .Enqueue 2, .Consume false, .Enqueue 3, .Enqueue 4,
          .Enqueue 5] ++ [.Consume true]) = .ok r ∧
      recordsCopied 2 r.copies = r.accepted ∧
      r.rbuf.dequeued_ = r.rbuf.enqueued_ ∧ r.rbuf.GetDepth = 0 :=
  no_record_lost_below_wrap ⟨5, 2, 6, 64, 3, 32, 2, 2, fun a => a, fun _ => 0⟩ _
    (by decide) (by decide) (by decide) (by decide)

/-- C5 fails as stated: on a reset queue of three one-byte slots over a
durable region of `2 ^ 32` bytes, `2 ^ 64 - 1` rounds of
`Enqueue(0), Consume(true)` and two more `Enqueue(0)` are a sequence of
`Enqueue` and `Consume` calls, `2 ^ 64 + 1` of them `Enqueue`, that all
return, with every copy inside the durable region; the final `Consume(true)`
then does not return: it stops at the `Logic Error` check with one of the two
waiting records copied. -/
theorem no_record_lost_fails_at_wrap :
    (∀ op ∈ pairs (2 ^ 64 - 1) ++ [Op.Enqueue 0, Op.Enqueue 0], op.isQueueCall = true) ∧
    enqueueCalls (pairs (2 ^ 64 - 1) ++ [.Enqueue 0, .Enqueue 0]) = 2 ^ 64 + 1 ∧
    ∃ s r, blank.Init 1 (fun _ => 0) 3 (fun _ => 0) (2 ^ 32) 0 = .ok (true, s) ∧
      execAll (Run.start s.Reset) (pairs (2 ^ 64 - 1) ++ [.Enqueue 0, .Enqueue 0]) =
        .ok r ∧
      (∀ c ∈ r.copies, c.dst + c.len ≤ s.pmem_region_size_) ∧
      r.rbuf.GetDepth = 2 ∧
      exec r (.Consume true) = .error .logicError ∧
      execAll (Run.start s.Reset)
        ((pairs (2 ^ 64 - 1) ++ [.Enqueue 0, .Enqueue 0]) ++ [.Consume true]) =
        .error .logicError := by
  constructor
  · intro op h
    rw [List.mem_append] at h
    rcases h with h | h
    · exact pairs_isQueueCall _ op h
    · simp only [List.mem_cons, List.mem_singleton, List.not_mem_nil, or_false, or_self] at h
      rw [h]; rfl
  refine ⟨by rw [enqueueCalls_append, pairs_enqueueCalls]; rfl, ?_⟩
  obtain ⟨s, hs, he, hd, hts, hc, -, -, -, -, hps⟩ :=
    Init_ok blank 1 (fun _ => 0) 3 (fun _ => 0) (2 ^ 32) 0 (by decide)
  have hc3 : s.max_ram_depth_ = 3 := by rw [hc]
  obtain ⟨r1, e1, a1, a2, a3, -, a5⟩ := pairs_run (2 ^ 64 - 1) (Run.start s.Reset)
    (by show 0 < s.max_ram_depth_; omega) rfl
    (by show 0 + (2 ^ 64 - 1) < 2 ^ 64; omega)
  have b1 : r1.rbuf.enqueued_ = 2 ^ 64 - 1 := by
    rw [a1]; show 0 + _ = _; omega
  have b2 : r1.rbuf.dequeued_ = 2 ^ 64 - 1 := by
    rw [a2]; show 0 + _ = _; omega
  have b3 : r1.rbuf.max_ram_depth_ = 3 := by rw [a3]; exact hc3
  obtain ⟨r2, e2, c1, c2, c3, c4⟩ := exec_Enqueue_accept_fields r1 0
    (by unfold GetDepth; omega)
  obtain ⟨r3, e3, d1, d2, d3, d4⟩ := exec_Enqueue_accept_fields r2 0
    (by unfold GetDepth; omega)
  have e4 : exec r3 (.Consume true) = .error .logicError := by
    simp only [exec, Consume_after_wrap r3.rbuf (by omega) (by omega) (by omega)]
  have e5 : execAll (Run.start s.Reset) (pairs (2 ^ 64 - 1) ++ [.Enqueue 0, .Enqueue 0]) =
      .ok r3 := by
    rw [execAll_append, e1]
    simp only [execAll, e2, e3]
  refine ⟨s, r3, hs, e5, ?_, by unfold GetDepth; omega, e4, ?_⟩
  · intro c hc
    rw [d4, c4] at hc
    rcases a5 c hc with h | h
    · cases h
    · have : (Run.start s.Reset).rbuf.type_size_ = 1 := hts
      omega
  · rw [execAll_append, e5]
    simp only [execAll, e4]

/-! ## Records in the two regions, while `OFF` is exact -/

/-- Two records less than a capacity apart lie in different slots. -/
theorem slot_ne (cap j e : Nat) (h1 : j < e) (h2 : e - j < cap) : j % cap ≠ e % cap := by
  intro h
  have h0 : (e - j) % cap = 0 := Nat.sub_mod_eq_zero_of_mod_eq h.symm
  have := Nat.le_of_dvd (by omega) (Nat.dvd_of_mod_eq_zero h0)
  omega

/-- A `memset` over slot `e` sets every byte of slot `e`. -/
theorem memset_slot (m : Nat → Nat) (e v ts b : Nat) (hb : b < ts) :
    memset m (e * ts) v ts (e * ts + b) = v % 256 := by
  unfold memset
  rw [if_pos ⟨Nat.le_add_right _ _, by omega⟩]

/-- A `memset` over slot `e` leaves the bytes of every other slot. -/
theorem memset_other_slot (m : Nat → Nat) (e q v ts b : Nat) (hb : b < ts) (hne : q ≠ e) :
    memset m (e * ts) v ts (q * ts + b) = m (q * ts + b) := by
  unfold memset
  rw [if_neg]
  rintro ⟨h1, h2⟩
  rcases Nat.lt_or_gt_of_ne hne with h | h
  · have := Nat.mul_le_mul_right ts (Nat.succ_le_of_lt h)
    rw [Nat.succ_mul] at this
    omega
  · have := Nat.mul_le_mul_right ts (Nat.succ_le_of_lt h)
    rw [Nat.succ_mul] at this
    omega

/-- A copy of `n` records from record `y` of the source to record `x` of the
destination puts source record `y + k` at destination record `x + k`. -/
theorem memcpy_record (dst src : Nat → Nat) (x y n ts k b : Nat) (hk : k < n)
    (hb : b < ts) :
    memcpy dst (x * ts) src (y * ts) (n * ts) ((x + k) * ts + b) =
      src ((y + k) * ts + b) := by
  have h1 := Nat.mul_le_mul_right ts (Nat.succ_le_of_lt hk)
  rw [Nat.succ_mul] at h1
  unfold memcpy
  rw [Nat.add_mul, Nat.add_mul, if_pos ⟨by omega, by omega⟩]
  congr 1
  omega

/-- The same for a copy that starts at the first source record. -/
theorem memcpy_record_zero (dst src : Nat → Nat) (x n ts k b : Nat) (hk : k < n)
    (hb : b < ts) :
    memcpy dst (x * ts) src 0 (n * ts) ((x + k) * ts + b) = src (k * ts + b) := by
  have h := memcpy_record dst src x 0 n ts k b hk hb
  rwa [Nat.zero_mul, Nat.zero_add] at h

/-- A copy to record `x` on leaves the destination records below `x`. -/
theorem memcpy_record_below (dst src : Nat → Nat) (x so len ts j b : Nat) (hj : j < x)
    (hb : b < ts) :
    memcpy dst (x * ts) src so len (j * ts + b) = dst (j * ts + b) := by
  have h1 := Nat.mul_le_mul_right ts (Nat.succ_le_of_lt hj)
  rw [Nat.succ_mul] at h1
  unfold memcpy
  rw [if_neg (by omega)]

/-- The durable region after a `copyRun` that wraps. -/
theorem copyRun_pmem_of_gt (s : ring_buffer) (h t : Nat) (hgt : ¬ h ≤ t) :
    (s.copyRun h t).2.pmem_queue_ =
      memcpy
        (memcpy s.pmem_queue_ (s.OFF s.dequeued_) s.ram_queue_ (s.OFF h)
          (((s.max_ram_depth_ - h) * s.type_size_) % 2 ^ 64))
        (s.OFF ((s.dequeued_ + (s.max_ram_depth_ - h)) % 2 ^ 64)) s.ram_queue_ 0
        (((t + 1) * s.type_size_) % 2 ^ 64) := by
  unfold copyRun; rw [if_neg hgt]; rfl

/-- While `OFF` is exact, a flush puts every waiting record `j` at the bytes
of durable record `j`, whether the run of slots wraps or not. -/
theorem copyRun_pmem_flushed (s : ring_buffer) (h1 : s.dequeued_ < s.enqueued_)
    (h2 : s.enqueued_ - s.dequeued_ ≤ s.max_ram_depth_) (hts : 0 < s.type_size_)
    (hcap : s.max_ram_depth_ * s.type_size_ ≤ 2 ^ 32)
    (hend : s.enqueued_ * s.type_size_ ≤ 2 ^ 32) (j b : Nat)
    (hj1 : s.dequeued_ ≤ j) (hj2 : j < s.enqueued_) (hb : b < s.type_size_) :
    (s.copyRun (s.dequeued_ % s.max_ram_depth_)
      ((s.enqueued_ - 1) % s.max_ram_depth_)).2.pmem_queue_ (j * s.type_size_ + b) =
      s.ram_queue_ (j % s.max_ram_depth_ * s.type_size_ + b) := by
  obtain ⟨ha, hb'⟩ := span_records s.max_ram_depth_ s.dequeued_ s.enqueued_ h1 h2
  have hc : 0 < s.max_ram_depth_ := by omega
  have hhead : s.dequeued_ % s.max_ram_depth_ < s.max_ram_depth_ := Nat.mod_lt _ hc
  have htail : (s.enqueued_ - 1) % s.max_ram_depth_ < s.max_ram_depth_ := Nat.mod_lt _ hc
  obtain ⟨k, rfl⟩ := Nat.exists_eq_add_of_le hj1
  have hk : k < s.enqueued_ - s.dequeued_ := by omega
  have hmod := mod_add_lt_cap s.max_ram_depth_ s.dequeued_ k hc (by omega)
  have e1 := Nat.mul_le_mul_right s.type_size_ (Nat.succ_le_of_lt h1)
  rw [Nat.succ_mul] at e1
  have e2 := Nat.mul_le_mul_right s.type_size_ (Nat.succ_le_of_lt hhead)
  rw [Nat.succ_mul] at e2
  have e3 := Nat.mul_le_mul_right s.type_size_ h2
  have o1 : s.OFF s.dequeued_ = s.dequeued_ * s.type_size_ := OFF_exact s _ hts (by omega)
  have o2 : s.OFF (s.dequeued_ % s.max_ram_depth_) =
      s.dequeued_ % s.max_ram_depth_ * s.type_size_ := OFF_exact s _ hts (by omega)
  by_cases hle : s.dequeued_ % s.max_ram_depth_ ≤ (s.enqueued_ - 1) % s.max_ram_depth_
  · have hd := ha hle
    have l1 : (s.enqueued_ - s.dequeued_) * s.type_size_ % 2 ^ 64 =
        (s.enqueued_ - s.dequeued_) * s.type_size_ := Nat.mod_eq_of_lt (by omega)
    rw [copyRun_pmem_of_le s _ _ hle, hd, l1, o1, o2,
      memcpy_record _ _ _ _ _ _ k b hk hb, hmod, if_pos (by omega)]
  · obtain ⟨hd, -⟩ := hb' hle
    have e4 := Nat.mul_le_mul_right s.type_size_
      (show s.max_ram_depth_ - s.dequeued_ % s.max_ram_depth_ ≤ s.max_ram_depth_ by omega)
    have e5 := Nat.mul_le_mul_right s.type_size_
      (show (s.enqueued_ - 1) % s.max_ram_depth_ + 1 ≤ s.max_ram_depth_ by omega)
    have e6 := Nat.mul_le_mul_right s.type_size_
      (show s.dequeued_ + (s.max_ram_depth_ - s.dequeued_ % s.max_ram_depth_) + 1 ≤
        s.enqueued_ by omega)
    rw [Nat.succ_mul] at e6
    have o3 : s.OFF ((s.dequeued_ + (s.max_ram_depth_ - s.dequeued_ % s.max_ram_depth_))
        % 2 ^ 64) =
        (s.dequeued_ + (s.max_ram_depth_ - s.dequeued_ % s.max_ram_depth_)) *
          s.type_size_ := by
      have hi : s.dequeued_ + (s.max_ram_depth_ - s.dequeued_ % s.max_ram_depth_) ≤
          (s.dequeued_ + (s.max_ram_depth_ - s.dequeued_ % s.max_ram_depth_)) *
            s.type_size_ := Nat.le_mul_of_pos_right _ hts
      rw [Nat.mod_eq_of_lt (by omega)]
      exact OFF_exact s _ hts (by omega)
    have l2 : (s.max_ram_depth_ - s.dequeued_ % s.max_ram_depth_) * s.type_size_ % 2 ^ 64 =
        (s.max_ram_depth_ - s.dequeued_ % s.max_ram_depth_) * s.type_size_ :=
      Nat.mod_eq_of_lt (by omega)
    have l3 : ((s.enqueued_ - 1) % s.max_ram_depth_ + 1) * s.type_size_ % 2 ^ 64 =
        ((s.enqueued_ - 1) % s.max_ram_depth_ + 1) * s.type_size_ :=
      Nat.mod_eq_of_lt (by omega)
    rw [copyRun_pmem_of_gt s _ _ hle, l2, l3, o1, o2, o3]
    by_cases hkm : k < s.max_ram_depth_ - s.dequeued_ % s.max_ram_depth_
    · rw [memcpy_record_below _ _ _ _ _ _ _ b (by omega) hb,
        memcpy_record _ _ _ _ _ _ k b hkm hb, hmod, if_pos (by omega)]
    · obtain ⟨k', hk'⟩ := Nat.exists_eq_add_of_le (Nat.le_of_not_lt hkm)
      have hidx : s.dequeued_ % s.max_ram_depth_ +
          (s.max_ram_depth_ - s.dequeued_ % s.max_ram_depth_ + k') - s.max_ram_depth_ = k' := by
        omega
      rw [hmod, if_neg (by omega), hk', ← Nat.add_assoc,
        memcpy_record_zero _ _ _ _ _ k' b (by omega) hb, hidx]

/-- A flush leaves the durable records below `dequeued_` as they were. -/
theorem copyRun_pmem_kept (s : ring_buffer) (h1 : s.dequeued_ < s.enqueued_)
    (h2 : s.enqueued_ - s.dequeued_ ≤ s.max_ram_depth_) (hts : 0 < s.type_size_)
    (hend : s.enqueued_ * s.type_size_ ≤ 2 ^ 32) (j b : Nat)
    (hj : j < s.dequeued_) (hb : b < s.type_size_) :
    (s.copyRun (s.dequeued_ % s.max_ram_depth_)
      ((s.enqueued_ - 1) % s.max_ram_depth_)).2.pmem_queue_ (j * s.type_size_ + b) =
      s.pmem_queue_ (j * s.type_size_ + b) := by
  obtain ⟨-, hb'⟩ := span_records s.max_ram_depth_ s.dequeued_ s.enqueued_ h1 h2
  have e1 := Nat.mul_le_mul_right s.type_size_ (Nat.succ_le_of_lt h1)
  rw [Nat.succ_mul] at e1
  have o1 : s.OFF s.dequeued_ = s.dequeued_ * s.type_size_ := OFF_exact s _ hts (by omega)
  by_cases hle : s.dequeued_ % s.max_ram_depth_ ≤ (s.enqueued_ - 1) % s.max_ram_depth_
  · rw [copyRun_pmem_of_le s _ _ hle, o1, memcpy_record_below _ _ _ _ _ _ _ b hj hb]
  · obtain ⟨hd, hlt⟩ := hb' hle
    have e6 := Nat.mul_le_mul_right s.type_size_
      (show s.dequeued_ + (s.max_ram_depth_ - s.dequeued_ % s.max_ram_depth_) + 1 ≤
        s.enqueued_ by omega)
    rw [Nat.succ_mul] at e6
    have o3 : s.OFF ((s.dequeued_ + (s.max_ram_depth_ - s.dequeued_ % s.max_ram_depth_))
        % 2 ^ 64) =
        (s.dequeued_ + (s.max_ram_depth_ - s.dequeued_ % s.max_ram_depth_)) *
          s.type_size_ := by
      have hi : s.dequeued_ + (s.max_ram_depth_ - s.dequeued_ % s.max_ram_depth_) ≤
          (s.dequeued_ + (s.max_ram_depth_ - s.dequeued_ % s.max_ram_depth_)) *
            s.type_size_ := Nat.le_mul_of_pos_right _ hts
      rw [Nat.mod_eq_of_lt (by omega)]
      exact OFF_exact s _ hts (by omega)
    rw [copyRun_pmem_of_gt s _ _ hle, o1, o3,
      memcpy_record_below _ _ _ _ _ _ _ b (by omega) hb,
      memcpy_record_below _ _ _ _ _ _ _ b hj hb]

/-- One `Enqueue` or `Consume` keeps the two regions in agreement with the
log, while every offset `OFF` is asked for fits 32 bits. -/
theorem exec_stored (r : Run) (op : Op) (hq : op.isQueueCall = true) (ht : r.Tracked)
    (hs : r.Stored) (hcap : r.rbuf.max_ram_depth_ * r.rbuf.type_size_ ≤ 2 ^ 32)
    (hend : (r.rbuf.enqueued_ + 1) * r.rbuf.type_size_ ≤ 2 ^ 32) :
    ∃ r', exec r op = .ok r' ∧ r'.Stored := by
  obtain ⟨⟨i1, i2⟩, t1, t2, t3, t4⟩ := ht
  obtain ⟨s1, s2, s3⟩ := hs
  have hle : r.rbuf.enqueued_ + 1 ≤ (r.rbuf.enqueued_ + 1) * r.rbuf.type_size_ :=
    Nat.le_mul_of_pos_right _ t3
  have hmul : r.rbuf.enqueued_ * r.rbuf.type_size_ ≤
      (r.rbuf.enqueued_ + 1) * r.rbuf.type_size_ :=
    Nat.mul_le_mul_right _ (Nat.le_succ _)
  have hdep := GetDepth_eq r.rbuf (by omega) i1
  cases op with
  | SetThresh t => cases hq
  | Reset => cases hq
  | Enqueue v =>
    by_cases hfull : r.rbuf.max_ram_depth_ ≤ r.rbuf.GetDepth
    · exact ⟨_, exec_Enqueue_refuse r v hfull, s1, s2, s3⟩
    · have hlt : r.rbuf.GetDepth < r.rbuf.max_ram_depth_ := by omega
      have hc : 0 < r.rbuf.max_ram_depth_ := by omega
      have hslot : r.rbuf.enqueued_ % r.rbuf.max_ram_depth_ < r.rbuf.max_ram_depth_ :=
        Nat.mod_lt _ hc
      have e2 := Nat.mul_le_mul_right r.rbuf.type_size_ (Nat.succ_le_of_lt hslot)
      rw [Nat.succ_mul] at e2
      have o1 : r.rbuf.OFF (r.rbuf.enqueued_ % r.rbuf.max_ram_depth_) =
          r.rbuf.enqueued_ % r.rbuf.max_ram_depth_ * r.rbuf.type_size_ :=
        OFF_exact _ _ t3 (by omega)
      have hm : (r.rbuf.enqueued_ + 1) % 2 ^ 64 = r.rbuf.enqueued_ + 1 :=
        Nat.mod_eq_of_lt (by omega)
      refine ⟨_, exec_Enqueue_accept r v hlt, ?_, ?_, ?_⟩
      · show (r.rbuf.enqueued_ + 1) % 2 ^ 64 = (r.log ++ [v]).length
        rw [hm, List.length_append, List.length_singleton, s1]
      · intro j b hj1 hj2 hb
        dsimp only at hj1 hj2 hb ⊢
        rw [hm] at hj2
        rw [o1]
        by_cases hje : j = r.rbuf.enqueued_
        · rw [hje, memset_slot _ _ _ _ _ hb, List.getD_append_right _ _ _ _ (by omega), s1,
            Nat.sub_self, List.getD_cons_zero]
        · have hne := slot_ne r.rbuf.max_ram_depth_ j r.rbuf.enqueued_ (by omega) (by omega)
          rw [memset_other_slot _ _ _ _ _ _ hb hne, List.getD_append _ _ _ _ (by omega)]
          exact s2 j b hj1 (by omega) hb
      · intro j b hj hb
        dsimp only at hj hb ⊢
        rw [List.getD_append _ _ _ _ (by omega)]
        exact s3 j b hj hb
  | Consume force =>
    by_cases hn : (force = false ∧ r.rbuf.GetDepth < r.rbuf.min_consume_depth_) ∨
        r.rbuf.GetDepth = 0
    · refine ⟨r, ?_, s1, s2, s3⟩
      simp [exec, Consume_noop _ _ hn]
    · have hd : r.rbuf.dequeued_ < r.rbuf.enqueued_ := by omega
      have hf : force = true ∨
          r.rbuf.min_consume_depth_ ≤ r.rbuf.enqueued_ - r.rbuf.dequeued_ := by
        cases force with
        | true => exact Or.inl rfl
        | false => right; rw [← hdep]; simp at hn; exact hn.1
      have hc := exec_Consume_flush r force (by omega) ⟨i1, i2⟩ hd hf
      have hq' := copyRun_dequeued r.rbuf (by omega) hd i2
      refine ⟨_, hc, ?_, ?_, ?_⟩
      · show (copyRun _ _ _).2.enqueued_ = r.log.length
        rw [copyRun_enqueued]; exact s1
      · intro j b hj1 hj2 hb
        dsimp only at hj1 hj2
        rw [hq'] at hj1
        rw [copyRun_enqueued] at hj2
        omega
      · intro j b hj hb
        dsimp only at hj hb ⊢
        rw [hq'] at hj
        rw [copyRun_type_size] at hb ⊢
        by_cases hjd : j < r.rbuf.dequeued_
        · rw [copyRun_pmem_kept r.rbuf hd i2 t3 (by omega) j b hjd hb]
          exact s3 j b hjd hb
        · rw [copyRun_pmem_flushed r.rbuf hd i2 t3 hcap (by omega) j b (by omega) hj hb]
          exact s2 j b (by omega) hj hb

/-- The calls `Enqueue` and `Consume` change neither the staging capacity nor the record
size. -/
theorem exec_keeps_sizes (r r' : Run) (op : Op) (hq : op.isQueueCall = true)
    (h : exec r op = .ok r') :
    r'.rbuf.max_ram_depth_ = r.rbuf.max_ram_depth_ ∧
    r'.rbuf.type_size_ = r.rbuf.type_size_ := by
  cases op with
  | SetThresh t => cases hq
  | Reset => cases hq
  | Enqueue v =>
    have hk : (r.rbuf.Enqueue v).2.max_ram_depth_ = r.rbuf.max_ram_depth_ ∧
        (r.rbuf.Enqueue v).2.type_size_ = r.rbuf.type_size_ := by
      unfold Enqueue; split <;> exact ⟨rfl, rfl⟩
    simp only [exec] at h
    split at h <;> cases h <;> exact hk
  | Consume force =>
    simp only [exec] at h
    split at h
    · cases h
    · next c hc =>
      cases h
      unfold Consume at hc
      simp only at hc
      split at hc
      · cases hc; exact ⟨rfl, rfl⟩
      · split at hc
        · cases hc; exact ⟨rfl, rfl⟩
        · split at hc
          · cases hc
          · split at hc
            · cases hc
            · cases hc
              exact ⟨copyRun_max_ram_depth _ _ _, copyRun_type_size _ _ _⟩

/-- A sequence of `Enqueue` and `Consume` calls keeps the bookkeeping of a run
and the agreement of the two regions with the log, while every offset `OFF`
is asked for fits 32 bits. -/
theorem execAll_stored (ops : List Op) (r : Run)
    (hq : ∀ op ∈ ops, op.isQueueCall = true) (ht : r.Tracked) (hs : r.Stored)
    (hcap : r.rbuf.max_ram_depth_ * r.rbuf.type_size_ ≤ 2 ^ 32)
    (hend : (r.rbuf.enqueued_ + ops.length) * r.rbuf.type_size_ ≤ 2 ^ 32) :
    ∃ r', execAll r ops = .ok r' ∧ r'.Tracked ∧ r'.Stored ∧
      r'.rbuf.enqueued_ ≤ r.rbuf.enqueued_ + ops.length ∧
      r'.rbuf.max_ram_depth_ = r.rbuf.max_ram_depth_ ∧
      r'.rbuf.type_size_ = r.rbuf.type_size_ := by
  induction ops generalizing r with
  | nil => exact ⟨r, rfl, ht, hs, Nat.le_refl _, rfl, rfl⟩
  | cons op ops ih =>
    simp only [List.length_cons] at hend ⊢
    have hop := hq op (List.mem_cons_self _ _)
    have hts := ht.2.2.2.1
    have hmono : (r.rbuf.enqueued_ + 1) * r.rbuf.type_size_ ≤
        (r.rbuf.enqueued_ + (ops.length + 1)) * r.rbuf.type_size_ :=
      Nat.mul_le_mul_right _ (by omega)
    have hle : r.rbuf.enqueued_ + 1 ≤ (r.rbuf.enqueued_ + 1) * r.rbuf.type_size_ :=
      Nat.le_mul_of_pos_right _ hts
    have hone := enqueues_le_one op
    obtain ⟨r1, e1, t1, b1, -⟩ := exec_tracked r op hop ht (by omega)
    obtain ⟨r1', e1', s1⟩ := exec_stored r op hop ht hs hcap (by omega)
    rw [e1] at e1'
    cases e1'
    obtain ⟨k1, k2⟩ := exec_keeps_sizes r r1 op hop e1
    have hmono2 : (r1.rbuf.enqueued_ + ops.length) * r.rbuf.type_size_ ≤
        (r.rbuf.enqueued_ + (ops.length + 1)) * r.rbuf.type_size_ :=
      Nat.mul_le_mul_right _ (by omega)
    obtain ⟨r2, e2, t2, s2, b2, m2, n2⟩ :=
      ih r1 (fun o ho => hq o (List.mem_cons_of_mem _ ho)) t1 s1
        (by rw [k1, k2]; exact hcap) (by rw [k2]; omega)
    refine ⟨r2, ?_, t2, s2, by omega, by rw [m2, k1], by rw [n2, k2]⟩
    simp only [execAll, e1, e2]

/-- Wraparound correctness, where `OFF` is exact. On a reset queue whose
staging region is at most `2 ^ 32` bytes long, a sequence of `Enqueue` and
`Consume` calls that ends with `Consume(true)` and whose number of calls times
the record size is at most `2 ^ 32` returns from every call and leaves, for
every accepted record `j`, in enqueue order, the byte of its value in each of
the `type_size_` bytes of durable record `j`. -/
theorem durable_order_while_OFF_exact (s0 : ring_buffer) (ops : List Op)
    (hq : ∀ op ∈ ops, op.isQueueCall = true) (hts : 0 < s0.type_size_)
    (hcap : s0.max_ram_depth_ * s0.type_size_ ≤ 2 ^ 32)
    (hlen : (ops ++ [Op.Consume true]).length * s0.type_size_ ≤ 2 ^ 32) :
    ∃ r, execAll (Run.start s0.Reset) (ops ++ [.Consume true]) = .ok r ∧
      r.accepted = r.log.length ∧ r.rbuf.dequeued_ = r.log.length ∧
      ∀ j b, j < r.log.length → b < s0.type_size_ →
        r.rbuf.pmem_queue_ (j * s0.type_size_ + b) = r.log.getD j 0 % 256 := by
  have hq' : ∀ op ∈ ops ++ [Op.Consume true], op.isQueueCall = true := by
    intro op h
    rw [List.mem_append, List.mem_singleton] at h
    rcases h with h | h
    · exact hq op h
    · rw [h]; rfl
  have ht : (Run.start s0.Reset).Tracked :=
    ⟨⟨Nat.le_refl _, Nat.zero_le _⟩, rfl, rfl, hts, by
      show s0.max_ram_depth_ * s0.type_size_ < 2 ^ 64
      omega⟩
  have hs : (Run.start s0.Reset).Stored :=
    ⟨rfl, fun j b h1 h2 _ => absurd h2 (Nat.not_lt_zero _),
      fun j b h1 _ => absurd h1 (Nat.not_lt_zero _)⟩
  obtain ⟨r, e, t, s, -, -, n⟩ := execAll_stored (ops ++ [.Consume true])
    (Run.start s0.Reset) hq' ht hs hcap
    (by show (0 + _) * s0.type_size_ ≤ 2 ^ 32; rw [Nat.zero_add]; exact hlen)
  have hlen' : (ops ++ [Op.Consume true]).length < 2 ^ 64 := by
    have := Nat.le_mul_of_pos_right (ops ++ [Op.Consume true]).length hts
    omega
  rw [List.length_append, List.length_singleton] at hlen'
  have hcnt := enqueueCalls_le_length ops
  obtain ⟨r', e', -, h2, -⟩ := run_then_forced ops (Run.start s0.Reset) hq ht
    (by show 0 + enqueueCalls ops < 2 ^ 64; omega)
  rw [e] at e'
  cases e'
  have hts' : r.rbuf.type_size_ = s0.type_size_ := n
  obtain ⟨s1, -, s3⟩ := s
  obtain ⟨-, a1, -⟩ := t
  refine ⟨r, e, by omega, by omega, ?_⟩
  intro j b hj hb
  rw [← hts'] at hb ⊢
  exact s3 j b (by omega) hb

/-! ## The order of the durable records -/

/-- The scenario of the specification: four one-byte slots, the values 1 to 4
are accepted, a fifth is refused with depth 4, and the forced `Consume` leaves
the bytes 1, 2, 3, 4 at the start of the durable region and `dequeued_ = 4`. -/
theorem scenario_four :
    ∃ s r1 r2 r3, blank.Init 1 (fun _ => 0) 4 (fun _ => 0) 4 0 = .ok (true, s) ∧
      execAll (Run.start s) [.Enqueue 1, .Enqueue 2, .Enqueue 3, .Enqueue 4] = .ok r1 ∧
      r1.accepted = 4 ∧ r1.refused = 0 ∧
      exec r1 (.Enqueue 5) = .ok r2 ∧
      r2.refused = 1 ∧ r2.rbuf.enqueued_ = 4 ∧ r2.rbuf.GetDepth = 4 ∧
      exec r2 (.Consume true) = .ok r3 ∧
      r3.copies = [⟨0, 0, 4⟩] ∧ r3.rbuf.dequeued_ = 4 ∧
      (List.range 4).map r3.rbuf.pmem_queue_ = [1, 2, 3, 4] :=
  ⟨_, _, _, _, rfl, rfl, rfl, rfl, rfl, rfl, rfl, rfl, rfl, rfl, rfl, rfl⟩

/-- Wraparound correctness at three two-byte slots: five records pass through
the staging region around two flushes, the second of them over a run that
wraps, and reach the durable region in enqueue order. -/
theorem durable_order_three_slots :
    ∃ r, execAll (Run.start (ring_buffer.Reset
          ⟨7, 7, 6, 64, 3, 32, 0, 2, fun _ => 0, fun _ => 0⟩))
        ([.Enqueue 11, .Enqueue 12, .Consume false, .Enqueue 13, .Enqueue 14, .Enqueue 15] ++
          [.Consume true]) = .ok r ∧
      r.accepted = r.log.length ∧ r.rbuf.dequeued_ = r.log.length ∧
      ∀ j b, j < r.log.length → b < 2 →
        r.rbuf.pmem_queue_ (j * 2 + b) = r.log.getD j 0 % 256 :=
  durable_order_while_OFF_exact ⟨7, 7, 6, 64, 3, 32, 0, 2, fun _ => 0, fun _ => 0⟩ _
    (by decide) (by decide) (by decide) (by decide)

/-- C6, at a failing input: three slots of `2 ^ 31` bytes each. The calls
`Enqueue(1), Enqueue(2), Consume(true), Enqueue(3), Consume(true)` all succeed
and keep the depth below the capacity of three. The third record belongs in
slot 2, at byte offset `2 ^ 32` of both regions; `OFF(2)` is 0, so it is
written over slot 0 and copied over durable record 0. At the end the first
byte of the durable region holds 3, not 1, and the bytes of durable record 2
were never written. -/
theorem durable_order_broken_by_OFF :
    ∃ s r, blank.Init (2 ^ 31) (fun _ => 0) (3 * 2 ^ 31) (fun _ => 0) (2 ^ 34) 0 =
        .ok (true, s) ∧
      s.max_ram_depth_ = 3 ∧
      execAll (Run.start s)
        [.Enqueue 1, .Enqueue 2, .Consume true, .Enqueue 3, .Consume true] = .ok r ∧
      r.accepted = 3 ∧ r.refused = 0 ∧ r.rbuf.dequeued_ = 3 ∧
      r.copies = [⟨0, 0, 2 ^ 32⟩, ⟨0, 0, 2 ^ 31⟩] ∧
      r.rbuf.pmem_queue_ 0 = 3 ∧
      r.rbuf.pmem_queue_ (2 ^ 31) = 2 ∧
      r.rbuf.pmem_queue_ (2 ^ 32) = 0 :=
  ⟨_, _, rfl, rfl, rfl, rfl, rfl, rfl, rfl, rfl, rfl, rfl⟩

/-- A run of `Enqueue` calls that fits the free slots: every call is accepted,
`enqueued_` moves up by their number and nothing else of the bookkeeping
changes. -/
theorem enqueue_run (vals : List Nat) (r : Run) (hd : r.rbuf.dequeued_ ≤ r.rbuf.enqueued_)
    (hfit : r.rbuf.enqueued_ - r.rbuf.dequeued_ + vals.length ≤ r.rbuf.max_ram_depth_)
    (hw : r.rbuf.enqueued_ + vals.length < 2 ^ 64) :
    ∃ r', execAll r (vals.map Op.Enqueue) = .ok r' ∧
      r'.rbuf.enqueued_ = r.rbuf.enqueued_ + vals.length ∧
      r'.rbuf.dequeued_ = r.rbuf.dequeued_ ∧
      r'.rbuf.max_ram_depth_ = r.rbuf.max_ram_depth_ ∧
      r'.rbuf.type_size_ = r.rbuf.type_size_ ∧
      r'.rbuf.pmem_queue_ = r.rbuf.pmem_queue_ ∧
      r'.accepted = r.accepted + vals.length ∧ r'.refused = r.refused ∧
      r'.copies = r.copies := by
  induction vals generalizing r with
  | nil => exact ⟨r, rfl, rfl, rfl, rfl, rfl, rfl, rfl, rfl, rfl⟩
  | cons v vals ih =>
    simp only [List.length_cons] at hfit hw ⊢
    have hdep : r.rbuf.GetDepth < r.rbuf.max_ram_depth_ := by
      rw [GetDepth_eq _ (by omega) hd]; omega
    have e1 := exec_Enqueue_accept r v hdep
    have hm : (r.rbuf.enqueued_ + 1) % 2 ^ 64 = r.rbuf.enqueued_ + 1 :=
      Nat.mod_eq_of_lt (by omega)
    rw [hm] at e1
    generalize hr1 : ({ r with
      rbuf := { r.rbuf with
        ram_queue_ := memset r.rbuf.ram_queue_
          (r.rbuf.OFF (r.rbuf.enqueued_ % r.rbuf.max_ram_depth_)) v r.rbuf.type_size_
        enqueued_ := r.rbuf.enqueued_ + 1 }
      accepted := r.accepted + 1
      log := r.log ++ [v] } : Run) = r1 at e1
    have f1 : r1.rbuf.enqueued_ = r.rbuf.enqueued_ + 1 := by rw [← hr1]
    have f2 : r1.rbuf.dequeued_ = r.rbuf.dequeued_ := by rw [← hr1]
    have f3 : r1.rbuf.max_ram_depth_ = r.rbuf.max_ram_depth_ := by rw [← hr1]
    have f4 : r1.rbuf.type_size_ = r.rbuf.type_size_ := by rw [← hr1]
    have f5 : r1.rbuf.pmem_queue_ = r.rbuf.pmem_queue_ := by rw [← hr1]
    have f6 : r1.accepted = r.accepted + 1 := by rw [← hr1]
    have f7 : r1.refused = r.refused := by rw [← hr1]
    have f8 : r1.copies = r.copies := by rw [← hr1]
    obtain ⟨r2, e2, g1, g2, g3, g4, g5, g6, g7, g8⟩ :=
      ih r1 (by omega) (by omega) (by omega)
    refine ⟨r2, ?_, by omega, by omega, by omega, by omega, by rw [g5, f5], by omega,
      by omega, by rw [g8, f8]⟩
    simp only [List.map_cons, execAll, e1, e2]

/-- C7, at a failing input: `N = 2 ^ 32 + 1` one-byte slots, the value 5
enqueued `2 ^ 32` times and then the value 6. All `N` calls return `true`, the
next `Enqueue` returns `false` and the forced `Consume` moves `dequeued_` to
`N`, as claimed; but the last record, of slot index `2 ^ 32`, was written at
`OFF(2 ^ 32) = 0`, over the first one, so the first durable byte is 6 where the
first value enqueued was 5. -/
theorem scenario_broken_beyond_32_bits :
    ∃ s r, blank.Init 1 (fun _ => 0) (2 ^ 32 + 1) (fun _ => 0) (2 ^ 32 + 1) 0 =
        .ok (true, s) ∧
      s.max_ram_depth_ = 2 ^ 32 + 1 ∧
      execAll (Run.start s)
        ((List.replicate (2 ^ 32) 5 ++ [6]).map Op.Enqueue ++
          [.Enqueue 7, .Consume true]) = .ok r ∧
      r.accepted = 2 ^ 32 + 1 ∧ r.refused = 1 ∧
      r.rbuf.enqueued_ = 2 ^ 32 + 1 ∧ r.rbuf.dequeued_ = 2 ^ 32 + 1 ∧
      r.copies = [⟨0, 0, 2 ^ 32 + 1⟩] ∧
      r.rbuf.pmem_queue_ 0 = 6 := by
  obtain ⟨s, hs, he, hd, hts, hc, -⟩ :=
    Init_ok blank 1 (fun _ => 0) (2 ^ 32 + 1) (fun _ => 0) (2 ^ 32 + 1) 0 (by decide)
  have hcN : s.max_ram_depth_ = 2 ^ 32 + 1 := by rw [hc]; rfl
  have hlen : (List.replicate (2 ^ 32) 5).length = 2 ^ 32 := List.length_replicate _ _
  obtain ⟨r1, e1, a1, a2, a3, a4, -, a6, a7, a8⟩ :=
    enqueue_run (List.replicate (2 ^ 32) 5) (Run.start s)
      (by show s.dequeued_ ≤ s.enqueued_; omega)
      (by show s.enqueued_ - s.dequeued_ + _ ≤ s.max_ram_depth_; omega)
      (by show s.enqueued_ + _ < 2 ^ 64; omega)
  have b1 : r1.rbuf.enqueued_ = 2 ^ 32 := by rw [a1]; show s.enqueued_ + _ = _; omega
  have b2 : r1.rbuf.dequeued_ = 0 := by rw [a2]; exact hd
  have b3 : r1.rbuf.max_ram_depth_ = 2 ^ 32 + 1 := by rw [a3]; exact hcN
  have b4 : r1.rbuf.type_size_ = 1 := by rw [a4]; exact hts
  have b6 : r1.accepted = 2 ^ 32 := by rw [a6]; show 0 + _ = _; omega
  have b7 : r1.refused = 0 := by rw [a7]; rfl
  -- the last accepted record
  have e2 := exec_Enqueue_accept r1 6 (by unfold GetDepth; omega)
  generalize hr2 : ({ r1 with
    rbuf := { r1.rbuf with
      ram_queue_ := memset r1.rbuf.ram_queue_
        (r1.rbuf.OFF (r1.rbuf.enqueued_ % r1.rbuf.max_ram_depth_)) 6 r1.rbuf.type_size_
      enqueued_ := (r1.rbuf.enqueued_ + 1) % 2 ^ 64 }
    accepted := r1.accepted + 1
    log := r1.log ++ [6] } : Run) = r2 at e2
  have c1 : r2.rbuf.enqueued_ = 2 ^ 32 + 1 := by
    rw [← hr2]; show (r1.rbuf.enqueued_ + 1) % 2 ^ 64 = _; omega
  have c2 : r2.rbuf.dequeued_ = 0 := by rw [← hr2]; exact b2
  have c3 : r2.rbuf.max_ram_depth_ = 2 ^ 32 + 1 := by rw [← hr2]; exact b3
  have c4 : r2.rbuf.type_size_ = 1 := by rw [← hr2]; exact b4
  have c5 : r2.rbuf.ram_queue_ 0 = 6 := by
    rw [← hr2]
    show memset _ (r1.rbuf.OFF (r1.rbuf.enqueued_ % r1.rbuf.max_ram_depth_)) 6
      r1.rbuf.type_size_ 0 = 6
    simp [memset, OFF, b1, b3, b4]
  have c6 : r2.accepted = 2 ^ 32 + 1 := by rw [← hr2]; show r1.accepted + 1 = _; omega
  have c7 : r2.refused = 0 := by rw [← hr2]; exact b7
  have c8 : r2.copies = [] := by rw [← hr2]; exact a8
  -- the refused record
  have e3 := exec_Enqueue_refuse r2 7 (by unfold GetDepth; omega)
  -- the forced flush
  have e4 := exec_Consume_flush { r2 with refused := r2.refused + 1 } true
    (by show r2.rbuf.enqueued_ < 2 ^ 64; omega)
    (by
      show r2.rbuf.dequeued_ ≤ r2.rbuf.enqueued_ ∧
        r2.rbuf.enqueued_ - r2.rbuf.dequeued_ ≤ r2.rbuf.max_ram_depth_
      omega)
    (by show r2.rbuf.dequeued_ < r2.rbuf.enqueued_; omega) (Or.inl rfl)
  have hq := copyRun_dequeued r2.rbuf (by omega) (by omega) (by omega)
  have hp := copyRun_pmem_of_le r2.rbuf (r2.rbuf.dequeued_ % r2.rbuf.max_ram_depth_)
    ((r2.rbuf.enqueued_ - 1) % r2.rbuf.max_ram_depth_) (by rw [c1, c2, c3]; decide)
  have hcp := copyRun_copies_of_le r2.rbuf (r2.rbuf.dequeued_ % r2.rbuf.max_ram_depth_)
    ((r2.rbuf.enqueued_ - 1) % r2.rbuf.max_ram_depth_) (by rw [c1, c2, c3]; decide)
  have eAll : execAll (Run.start s)
      ((List.replicate (2 ^ 32) 5 ++ [6]).map Op.Enqueue ++ [.Enqueue 7, .Consume true]) =
      exec { r2 with refused := r2.refused + 1 } (.Consume true) := by
    rw [List.map_append, execAll_append, execAll_append, e1]
    simp only [List.map_cons, List.map_nil, execAll, e2, e3]
    cases exec { r2 with refused := r2.refused + 1 } (.Consume true) <;> rfl
  rw [e4] at eAll
  refine ⟨s, _, hs, hcN, eAll, ?_, ?_, ?_, ?_, ?_, ?_⟩
  · exact c6
  · show r2.refused + 1 = 1
    omega
  · show (copyRun _ _ _).2.enqueued_ = _
    rw [copyRun_enqueued]; exact c1
  · show (copyRun _ _ _).2.dequeued_ = _
    rw [hq]; exact c1
  · show r2.copies ++ (copyRun _ _ _).1 = _
    rw [c8, hcp]
    simp [OFF, c1, c2, c3, c4]
  · show (copyRun _ _ _).2.pmem_queue_ 0 = 6
    rw [hp]
    simp [memcpy, OFF, c1, c2, c3, c4, c5]

/-! ## The producer and the consumer -/

/-- C9, at two failing inputs. First a queue of fifty one-byte records in each
region: `interval` is `50 / 100 = 0`, the first `Enqueue` succeeds and the
remainder `i % interval` divides by zero; `produce` neither returns nor sets
the flag. Second `lastPass`, durable capacity `2 ^ 32`: after the `2 ^ 32`-th
accepted `Enqueue` the 32-bit `i` wraps to 0, the loop test holds again and
the next pass makes call number `2 ^ 32 + 1`. -/
theorem produce_faults :
    (∃ s, blank.Init 1 (fun _ => 0) 50 (fun _ => 0) 50 0 = .ok (true, s) ∧
      s.GetMaxDepth = 50 ∧
      produceEntry s = .loop 0 0 ∧
      (produce 1 s false).prod = .crashed .divByZero ∧
      (produce 1 s false).attempts = 1 ∧
      (produce 1 s false).future = false ∧
      (produce 60 s false).prod = .crashed .divByZero ∧
      (produce 60 s false).future = false) ∧
    (lastPass.rbuf.GetMaxDepth = 2 ^ 32 ∧
      produceEntry lastPass.rbuf = .loop 42949672 0 ∧
      (producerStep lastPass).prod = .loop 42949672 0 ∧
      (producerStep lastPass).attempts = 2 ^ 32 ∧
      (producerStep (consumerStep (producerStep lastPass))).prod = .loop 42949672 1 ∧
      (producerStep (consumerStep (producerStep lastPass))).attempts = 2 ^ 32 + 1) :=
  ⟨⟨_, rfl, rfl, rfl, rfl, rfl, rfl, rfl, rfl⟩, rfl, rfl, rfl, rfl, rfl, rfl⟩

/-- A step of either thread keeps: the producer has returned only if the flag
is set. -/
theorem roundStep_future (h : Round) (role : Role)
    (hp : ∀ b, h.prod = .returned b → h.future = true) :
    ∀ b, (roundStep h role).prod = .returned b → (roundStep h role).future = true := by
  cases role with
  | producer =>
    intro b
    simp only [roundStep, producerStep]
    split
    · split
      · split
        · intro _; rfl
        · split
          · intro hb; cases hb
          · intro hb; cases hb
      · intro _; rfl
    · exact hp b
  | consumer =>
    intro b
    simp only [roundStep, consumerStep]
    split
    · split
      · split <;> exact hp b
      · split <;> exact hp b
    · exact hp b

/-- Under every schedule, a producer that has returned has set the flag. -/
theorem runRound_future (sched : List Role) (h : Round)
    (hp : ∀ b, h.prod = .returned b → h.future = true) :
    ∀ b, (runRound h sched).prod = .returned b → (runRound h sched).future = true := by
  induction sched generalizing h with
  | nil => exact hp
  | cons role sched ih => exact ih (roundStep h role) (roundStep_future h role hp)

/-- The configuration step of a round leaves the flag as it finds it and
resets the queue. -/
theorem configure_future (d d' : Driver) (hc : configure d = .ok d') :
    d'.future = d.future ∧ d'.rbuf.enqueued_ = 0 ∧ d'.rbuf.dequeued_ = 0 := by
  unfold configure at hc
  simp only at hc
  split at hc
  · cases hc
  · cases hc; exact ⟨rfl, rfl, rfl⟩

/-- The configuration step succeeds when the midpoint lies between 0 and 1. -/
theorem configure_ok (d : Driver)
    (h0 : 0 ≤ d.thresh_min + (d.thresh_max - d.thresh_min) / 2)
    (h1 : d.thresh_min + (d.thresh_max - d.thresh_min) / 2 ≤ 1) :
    configure d = .ok { d with
      thresh_cur := d.thresh_min + (d.thresh_max - d.thresh_min) / 2
      rbuf := (d.rbuf.SetThresh (d.thresh_min + (d.thresh_max - d.thresh_min) / 2)).Reset } := by
  unfold configure
  simp only
  rw [if_neg]
  intro h
  rcases h with h | h
  · exact absurd h (not_lt.mpr h0)
  · exact absurd h (not_lt.mpr h1)

/-- C10, what the code does in every round after a completed one. `future` is
written only by `produce`, which sets it, so the round that follows a round in
which the producer returned begins with the flag already set: the consumer's
first pass is its forced `Consume`, made before the producer has called
`Enqueue` at all, on the empty queue; the consumer then returns and flushes
nothing the producer enqueues in that round. -/
theorem later_round_flag_stays_set (d1 : Driver) (sched : List Role) (d2 d3 : Driver)
    (hend : roundEnd d1 (runRound (roundBegin d1) sched) = some d2)
    (hcfg : configure d2 = .ok d3) :
    (roundBegin d3).future = true ∧
    (consumerStep (roundBegin d3)).cons = .returned ∧
    (consumerStep (roundBegin d3)).forced = 1 ∧
    (consumerStep (roundBegin d3)).attempts = 0 ∧
    (consumerStep (roundBegin d3)).prod = produceEntry d3.rbuf ∧
    (consumerStep (roundBegin d3)).rbuf = d3.rbuf := by
  have h2 : d2.future = true := by
    have hinv := runRound_future sched (roundBegin d1) (by intro b hb; cases hb)
    unfold roundEnd at hend
    split at hend
    · next hp _ => cases hend; exact hinv _ hp
    · next hp _ => cases hend; exact hinv _ hp
    · cases hend
  obtain ⟨c1, c2, c3⟩ := configure_future d2 d3 hcfg
  have h3 : d3.future = true := by rw [c1, h2]
  have hn : d3.rbuf.Consume true = .ok ⟨false, [], d3.rbuf⟩ :=
    Consume_noop d3.rbuf true (Or.inr (by unfold GetDepth; rw [c2, c3]; rfl))
  have hstep : consumerStep (roundBegin d3) =
      { roundBegin d3 with rbuf := d3.rbuf, cons := .returned, forced := 0 + 1 } := by
    simp only [consumerStep, roundBegin, h3, hn]
    rfl
  rw [hstep]
  exact ⟨h3, rfl, rfl, rfl, rfl, rfl⟩

/-- The queue `smallQueue` is the one `Init` builds. -/
theorem Init_smallQueue :
    blank.Init 1 (fun _ => 0) 2 (fun _ => 0) 200 0 = .ok (true, smallQueue) := by
  simp [Init, SetTypeSize, SetThresh, Reset, smallQueue, blank]

/-- C10 at a failing input: two one-byte staging slots, two hundred durable
ones, thresholds 0 and 1. In round 1 the producer fills the two slots, is
refused, sets the flag and returns `false`; the consumer then makes its forced
`Consume` and the round ends with depth 0. Round 2 begins with the flag still
set. Scheduled first, the consumer makes its forced `Consume` on the empty
queue and returns; the producer then fills the two slots and is refused. Both
threads have returned and two records are left in the staging region. -/
theorem later_round_flag_stays_set_witness :
    (configure beforeRound1 = .ok round1 ∧
      roundEnd round1 (runRound (roundBegin round1)
        [.producer, .producer, .producer, .consumer]) = some afterRound1 ∧
      afterRound1.rbuf.GetDepth = 0 ∧
      configure afterRound1 = .ok round2) ∧
    ((roundBegin round2).future = true ∧
      (consumerStep (roundBegin round2)).cons = .returned ∧
      (consumerStep (roundBegin round2)).forced = 1 ∧
      (consumerStep (roundBegin round2)).attempts = 0 ∧
      (consumerStep (roundBegin round2)).prod = produceEntry round2.rbuf ∧
      (consumerStep (roundBegin round2)).rbuf = round2.rbuf) ∧
    (round2Run.prod = .returned false ∧ round2Run.cons = .returned ∧
      round2Run.forced = 1 ∧ round2Run.attempts = 3 ∧ round2Run.rbuf.GetDepth = 2) := by
  have hc1 : configure beforeRound1 = .ok round1 :=
    configure_ok beforeRound1 (by norm_num [beforeRound1]) (by norm_num [beforeRound1])
  have he1 : roundEnd round1 (runRound (roundBegin round1)
      [.producer, .producer, .producer, .consumer]) = some afterRound1 := rfl
  have hc2 : configure afterRound1 = .ok round2 :=
    configure_ok afterRound1 (by norm_num [afterRound1, round1, beforeRound1])
      (by norm_num [afterRound1, round1, beforeRound1])
  exact ⟨⟨hc1, he1, rfl, hc2⟩,
    later_round_flag_stays_set round1 _ afterRound1 round2 he1 hc2,
    rfl, rfl, rfl, rfl, rfl⟩

/-! ## Initialisation, reset, and the check after a flush -/

/-- C14: for every record size that is not zero and every pair of region
sizes, `Init` returns `true`, whatever the threshold fraction, and leaves both
counters at zero, the staging capacity `ram_region_size / type_size`, the
durable capacity `pmem_region_size / type_size` (natural-number division, the
leftover bytes unused) and the regions bound; with the default fraction 0 the
threshold `min_consume_depth_` is 0 records. -/
theorem Init_sets_up (s0 : ring_buffer) (type_size : Nat) (ram_region : Nat → Nat)
    (ram_region_size : Nat) (pmem_region : Nat → Nat) (pmem_region_size : Nat)
    (hts : 0 < type_size) :
    (∀ consume_thresh : ℚ, ∃ s,
      s0.Init type_size ram_region ram_region_size pmem_region pmem_region_size
        consume_thresh = .ok (true, s) ∧
      s.enqueued_ = 0 ∧ s.dequeued_ = 0 ∧ s.type_size_ = type_size ∧
      s.max_ram_depth_ = ram_region_size / type_size ∧
      s.max_pmem_depth_ = pmem_region_size / type_size ∧
      s.ram_region_size_ = ram_region_size ∧ s.pmem_region_size_ = pmem_region_size ∧
      s.ram_queue_ = ram_region ∧ s.pmem_queue_ = pmem_region) ∧
    ∃ s, s0.Init type_size ram_region ram_region_size pmem_region pmem_region_size 0 =
        .ok (true, s) ∧
      s.enqueued_ = 0 ∧ s.dequeued_ = 0 ∧
      s.max_ram_depth_ = ram_region_size / type_size ∧
      s.max_pmem_depth_ = pmem_region_size / type_size ∧
      s.min_consume_depth_ = 0 := by
  have h : type_size ≠ 0 := by omega
  constructor
  · intro consume_thresh
    simp only [Init, SetTypeSize, if_neg h]
    exact ⟨_, rfl, rfl, rfl, rfl, rfl, rfl, rfl, rfl, rfl, rfl⟩
  · simp only [Init, SetTypeSize, if_neg h]
    refine ⟨_, rfl, rfl, rfl, rfl, rfl, ?_⟩
    simp [SetThresh]

/-- C14 at a record size of 3 bytes, a staging region of 10 bytes and a durable
region of 20 bytes. -/
theorem Init_sets_up_witness :
    (∀ consume_thresh : ℚ, ∃ s,
      blank.Init 3 (fun a => a) 10 (fun _ => 7) 20 consume_thresh = .ok (true, s) ∧
      s.enqueued_ = 0 ∧ s.dequeued_ = 0 ∧ s.type_size_ = 3 ∧
      s.max_ram_depth_ = 10 / 3 ∧
      s.max_pmem_depth_ = 20 / 3 ∧
      s.ram_region_size_ = 10 ∧ s.pmem_region_size_ = 20 ∧
      s.ram_queue_ = (fun a => a) ∧ s.pmem_queue_ = (fun _ => 7)) ∧
    ∃ s, blank.Init 3 (fun a => a) 10 (fun _ => 7) 20 0 = .ok (true, s) ∧
      s.enqueued_ = 0 ∧ s.dequeued_ = 0 ∧
      s.max_ram_depth_ = 10 / 3 ∧
      s.max_pmem_depth_ = 20 / 3 ∧
      s.min_consume_depth_ = 0 :=
  Init_sets_up blank 3 (fun a => a) 10 (fun _ => 7) 20 (by decide)

/-- C15: for every queue state, `Reset` sets `enqueued_` and `dequeued_` to
zero and leaves the contents of both regions, the record size, both region
sizes, both capacities and the threshold as they were. -/
theorem Reset_zeroes_counters_only (s : ring_buffer) :
    s.Reset.enqueued_ = 0 ∧ s.Reset.dequeued_ = 0 ∧
    s.Reset.ram_queue_ = s.ram_queue_ ∧ s.Reset.pmem_queue_ = s.pmem_queue_ ∧
    s.Reset.type_size_ = s.type_size_ ∧
    s.Reset.ram_region_size_ = s.ram_region_size_ ∧
    s.Reset.pmem_region_size_ = s.pmem_region_size_ ∧
    s.Reset.max_ram_depth_ = s.max_ram_depth_ ∧
    s.Reset.max_pmem_depth_ = s.max_pmem_depth_ ∧
    s.Reset.min_consume_depth_ = s.min_consume_depth_ ∧
    s.Reset = { s with enqueued_ := 0, dequeued_ := 0 } :=
  ⟨rfl, rfl, rfl, rfl, rfl, rfl, rfl, rfl, rfl, rfl, rfl⟩

/-- C17: for every well-formed queue state with a staging capacity of at least
one and `1 ≤ enqueued_ - dequeued_ ≤ max_ram_depth_`, a `Consume` never stops
at its `Logic Error` check. With `head` and `tail` as the code computes them,
the records added to `dequeued_` are the depth read at entry both when
`head <= tail` and when `tail < head`; the call returns, and when it returns
`true` the new `dequeued_` is the old one plus that depth. A forced call
always returns `true`. -/
theorem Consume_passes_its_check (s : ring_buffer) (force : Bool) (hw : s.WF)
    (_hc : 1 ≤ s.max_ram_depth_) (h1 : 1 ≤ s.enqueued_ - s.dequeued_)
    (h2 : s.enqueued_ - s.dequeued_ ≤ s.max_ram_depth_) :
    s.Consume force ≠ .error .logicError ∧
    (s.dequeued_ % s.max_ram_depth_ ≤
        ((s.enqueued_ + 2 ^ 64 - 1) % 2 ^ 64) % s.max_ram_depth_ →
      ((s.enqueued_ + 2 ^ 64 - 1) % 2 ^ 64) % s.max_ram_depth_ -
        s.dequeued_ % s.max_ram_depth_ + 1 = s.GetDepth) ∧
    (((s.enqueued_ + 2 ^ 64 - 1) % 2 ^ 64) % s.max_ram_depth_ <
        s.dequeued_ % s.max_ram_depth_ →
      (s.max_ram_depth_ - s.dequeued_ % s.max_ram_depth_) +
        (((s.enqueued_ + 2 ^ 64 - 1) % 2 ^ 64) % s.max_ram_depth_ + 1) = s.GetDepth) ∧
    (∃ c, s.Consume force = .ok c ∧
      (c.ret = true → c.rbuf.dequeued_ = s.dequeued_ + s.GetDepth) ∧
      (force = true → c.ret = true)) := by
  have hd : s.dequeued_ < s.enqueued_ := by omega
  have hi : s.Inv := ⟨by omega, h2⟩
  have hdep := GetDepth_eq s hw.1 hi.1
  have htl : (s.enqueued_ + 2 ^ 64 - 1) % 2 ^ 64 = s.enqueued_ - 1 := by
    have := hw.1
    omega
  obtain ⟨ha, hb⟩ := span_records s.max_ram_depth_ s.dequeued_ s.enqueued_ hd h2
  have key : ∃ c, s.Consume force = .ok c ∧
      (c.ret = true → c.rbuf.dequeued_ = s.dequeued_ + s.GetDepth) ∧
      (force = true → c.ret = true) := by
    by_cases hn : (force = false ∧ s.GetDepth < s.min_consume_depth_) ∨ s.GetDepth = 0
    · refine ⟨_, Consume_noop s force hn, (fun h => by cases h), fun hf => ?_⟩
      rcases hn with hn | hn
      · rw [hf] at hn; cases hn.1
      · omega
    · have hf : force = true ∨ s.min_consume_depth_ ≤ s.enqueued_ - s.dequeued_ := by
        cases force with
        | true => exact Or.inl rfl
        | false => right; rw [← hdep]; simp at hn; exact hn.1
      refine ⟨_, Consume_flush s force hw.1 hi hd hf, fun _ => ?_, fun _ => rfl⟩
      show (copyRun _ _ _).2.dequeued_ = _
      rw [copyRun_dequeued s hw.1 hd h2, hdep]
      omega
  refine ⟨?_, ?_, ?_, key⟩
  · obtain ⟨c, hc', -⟩ := key
    rw [hc']
    intro h
    cases h
  · rw [htl, hdep]
    exact ha
  · rw [htl, hdep]
    intro hlt
    exact (hb (by omega)).1

/-- C17 at a queue of three slots holding records 5 and 6 of a round: the run
of slots wraps, from slot 2 to slot 0. -/
theorem Consume_passes_its_check_witness :
    (ring_buffer.Consume ⟨7, 5, 6, 64, 3, 32, 0, 2, fun a => a, fun _ => 0⟩ true ≠
      .error .logicError) ∧
    (5 % 3 ≤ ((7 + 2 ^ 64 - 1) % 2 ^ 64) % 3 →
      ((7 + 2 ^ 64 - 1) % 2 ^ 64) % 3 - 5 % 3 + 1 =
        ring_buffer.GetDepth ⟨7, 5, 6, 64, 3, 32, 0, 2, fun a => a, fun _ => 0⟩) ∧
    (((7 + 2 ^ 64 - 1) % 2 ^ 64) % 3 < 5 % 3 →
      (3 - 5 % 3) + (((7 + 2 ^ 64 - 1) % 2 ^ 64) % 3 + 1) =
        ring_buffer.GetDepth ⟨7, 5, 6, 64, 3, 32, 0, 2, fun a => a, fun _ => 0⟩) ∧
    (∃ c, ring_buffer.Consume ⟨7, 5, 6, 64, 3, 32, 0, 2, fun a => a, fun _ => 0⟩ true =
        .ok c ∧
      (c.ret = true → c.rbuf.dequeued_ =
        5 + ring_buffer.GetDepth ⟨7, 5, 6, 64, 3, 32, 0, 2, fun a => a, fun _ => 0⟩) ∧
      (true = true → c.ret = true)) :=
  Consume_passes_its_check ⟨7, 5, 6, 64, 3, 32, 0, 2, fun a => a, fun _ => 0⟩ true
    (by decide) (by decide) (by decide) (by decide)

/-! ## The input checks and the calibration loop -/

/-- A configuration the input checks let through has the durable size at least
the staging size and `0 ≤ thresh_min ≤ thresh_max ≤ 1`. -/
theorem inputChecks_none (pmem_size ram_size : Nat) (thresh_min thresh_max : ℚ)
    (h : inputChecks pmem_size ram_size thresh_min thresh_max = none) :
    ram_size ≤ pmem_size ∧ 0 ≤ thresh_min ∧ thresh_min ≤ thresh_max ∧ thresh_max ≤ 1 := by
  unfold inputChecks at h
  split at h
  · cases h
  · split at h
    · cases h
    · split at h
      · cases h
      · next h1 h2 h3 =>
        rw [not_or] at h3
        exact ⟨Nat.le_of_not_lt h1, not_lt.mp h3.1, not_lt.mp h2, not_lt.mp h3.2⟩

/-- C16: the input checks reject, with one of their three messages, exactly
when the durable size is smaller than the staging size, or `thresh_min` is
greater than `thresh_max`, or one of the two thresholds lies outside `[0, 1]`;
every configuration they let through has the durable size at least the staging
size and `0 ≤ thresh_min ≤ thresh_max ≤ 1`. -/
theorem inputChecks_reject_iff (pmem_size ram_size : Nat) (thresh_min thresh_max : ℚ) :
    (inputChecks pmem_size ram_size thresh_min thresh_max ≠ none ↔
      (pmem_size < ram_size ∨ thresh_max < thresh_min ∨
        (thresh_min < 0 ∨ 1 < thresh_min ∨ thresh_max < 0 ∨ 1 < thresh_max))) ∧
    (inputChecks pmem_size ram_size thresh_min thresh_max = none →
      ram_size ≤ pmem_size ∧ 0 ≤ thresh_min ∧ thresh_min ≤ thresh_max ∧
        thresh_max ≤ 1) := by
  refine ⟨⟨fun h => ?_, fun h => ?_⟩, inputChecks_none _ _ _ _⟩
  · by_contra hn
    simp only [not_or, not_lt] at hn
    obtain ⟨n1, n2, n3, -, -, n6⟩ := hn
    apply h
    unfold inputChecks
    rw [if_neg (by omega), if_neg (not_lt.mpr n2), if_neg]
    rintro (h' | h')
    · exact absurd h' (not_lt.mpr n3)
    · exact absurd h' (not_lt.mpr n6)
  · intro hnone
    obtain ⟨a1, a2, a3, a4⟩ := inputChecks_none _ _ _ _ hnone
    rcases h with h | h | h | h | h | h
    · omega
    · exact absurd h (not_lt.mpr a3)
    · exact absurd h (not_lt.mpr a2)
    · exact absurd h (not_lt.mpr (le_trans a3 a4))
    · exact absurd h (not_lt.mpr (le_trans a2 a3))
    · exact absurd h (not_lt.mpr a4)

/-- One round from valid thresholds: the configuration step succeeds, the
midpoint lies between the two bounds, one bound moves to it and the other
stays, and the width of the interval halves. -/
theorem round_valid (d : Driver) (hv : d.Valid) (produced : Bool) :
    ∃ d', configure d = .ok d' ∧
      d'.thresh_cur = d.thresh_min + (d.thresh_max - d.thresh_min) / 2 ∧
      d'.thresh_min = d.thresh_min ∧ d'.thresh_max = d.thresh_max ∧
      d.thresh_min ≤ d'.thresh_cur ∧ d'.thresh_cur ≤ d.thresh_max ∧
      (evaluate d' produced).Valid ∧
      (produced = false → (evaluate d' produced).thresh_max = d'.thresh_cur ∧
        (evaluate d' produced).thresh_min = d.thresh_min) ∧
      (produced = true → (evaluate d' produced).thresh_min = d'.thresh_cur ∧
        (evaluate d' produced).thresh_max = d.thresh_max) ∧
      (evaluate d' produced).thresh_max - (evaluate d' produced).thresh_min =
        (d.thresh_max - d.thresh_min) / 2 := by
  obtain ⟨v1, v2, v3⟩ := hv
  have m1 : d.thresh_min ≤ d.thresh_min + (d.thresh_max - d.thresh_min) / 2 := by linarith
  have m2 : d.thresh_min + (d.thresh_max - d.thresh_min) / 2 ≤ d.thresh_max := by linarith
  refine ⟨_, configure_ok d (by linarith) (by linarith), rfl, rfl, rfl, m1, m2, ?_, ?_, ?_, ?_⟩
  · cases produced with
    | false => exact ⟨v1, m1, le_trans m2 v3⟩
    | true => exact ⟨le_trans v1 m1, m2, v3⟩
  · intro h; rw [h]; exact ⟨rfl, rfl⟩
  · intro h; rw [h]; exact ⟨rfl, rfl⟩
  · cases produced with
    | false =>
      show d.thresh_min + (d.thresh_max - d.thresh_min) / 2 - d.thresh_min = _
      ring
    | true =>
      show d.thresh_max - (d.thresh_min + (d.thresh_max - d.thresh_min) / 2) = _
      ring

theorem calibrate_append (d : Driver) (a b : List Bool) :
    calibrate d (a ++ b) =
      match calibrate d a with
      | .error f => .error f
      | .ok d' => calibrate d' b := by
  induction a generalizing d with
  | nil => rfl
  | cons x a ih =>
    simp only [List.cons_append, calibrate]
    cases configure d with
    | error f => rfl
    | ok d' => exact ih _

/-- The calibration loop from valid thresholds never stops at the range check;
its bounds stay valid, only move inwards, and after `n` rounds are
`1 / 2 ^ n` of the first width apart. -/
theorem calibrate_valid (outcomes : List Bool) (d : Driver) (hv : d.Valid) :
    ∃ d', calibrate d outcomes = .ok d' ∧ d'.Valid ∧
      d.thresh_min ≤ d'.thresh_min ∧ d'.thresh_max ≤ d.thresh_max ∧
      d'.thresh_max - d'.thresh_min =
        (d.thresh_max - d.thresh_min) / 2 ^ outcomes.length := by
  induction outcomes generalizing d with
  | nil => exact ⟨d, rfl, hv, le_refl _, le_refl _, by simp⟩
  | cons x outcomes ih =>
    obtain ⟨d1, e1, -, c2, c3, c4, c5, v1, f1, f2, w1⟩ := round_valid d hv x
    obtain ⟨d2, e2, v2, g1, g2, w2⟩ := ih (evaluate d1 x) v1
    refine ⟨d2, by simp only [calibrate, e1, e2], v2, ?_, ?_, ?_⟩
    · cases x with
      | false => rw [← (f1 rfl).2]; exact g1
      | true => rw [(f2 rfl).1] at g1; exact le_trans c4 g1
    · cases x with
      | false => rw [(f1 rfl).1] at g2; exact le_trans g2 c5
      | true => rw [← (f2 rfl).2]; exact g2
    · rw [w2, w1, List.length_cons, pow_succ, div_div, mul_comm]

/-- The end of a round moves the thresholds as `evaluate` does, for the result
`produce` returned. -/
theorem roundEnd_thresholds (d d' : Driver) (h : Round) (he : roundEnd d h = some d') :
    ∃ produced, h.prod = .returned produced ∧
      d'.thresh_min = (evaluate d produced).thresh_min ∧
      d'.thresh_max = (evaluate d produced).thresh_max ∧
      d'.thresh_cur = (evaluate d produced).thresh_cur := by
  unfold roundEnd at he
  split at he
  · next hp _ => cases he; exact ⟨false, hp, rfl, rfl, rfl⟩
  · next hp _ => cases he; exact ⟨true, hp, rfl, rfl, rfl⟩
  · cases he

/-- C11: from `0 ≤ thresh_min ≤ thresh_max ≤ 1`, after any number of rounds
with any results `before`, the next round, with any result `produced`,
configures without a fault; its midpoint is
`thresh_min + (thresh_max - thresh_min) / 2` and lies between the two bounds;
the round moves `thresh_max` to the midpoint when the producer was refused and
`thresh_min` to it otherwise, so that the new lower bound is at least the old
one, the new upper bound at most the old one, and the bounds stay ordered. -/
theorem thresholds_only_narrow (d : Driver) (hv : d.Valid) (before : List Bool)
    (produced : Bool) :
    ∃ d1 d2, calibrate d before = .ok d1 ∧ configure d1 = .ok d2 ∧
      calibrate d (before ++ [produced]) = .ok (evaluate d2 produced) ∧
      d2.thresh_cur = d1.thresh_min + (d1.thresh_max - d1.thresh_min) / 2 ∧
      d1.thresh_min ≤ d2.thresh_cur ∧ d2.thresh_cur ≤ d1.thresh_max ∧
      (produced = false → (evaluate d2 produced).thresh_max = d2.thresh_cur ∧
        (evaluate d2 produced).thresh_min = d1.thresh_min) ∧
      (produced = true → (evaluate d2 produced).thresh_min = d2.thresh_cur ∧
        (evaluate d2 produced).thresh_max = d1.thresh_max) ∧
      d1.thresh_min ≤ (evaluate d2 produced).thresh_min ∧
      (evaluate d2 produced).thresh_max ≤ d1.thresh_max ∧
      (evaluate d2 produced).thresh_min ≤ (evaluate d2 produced).thresh_max := by
  obtain ⟨d1, e1, v1, -⟩ := calibrate_valid before d hv
  obtain ⟨d2, e2, c1, c2, c3, c4, c5, v2, f1, f2, -⟩ := round_valid d1 v1 produced
  refine ⟨d1, d2, e1, e2, ?_, c1, c4, c5, f1, f2, ?_, ?_, v2.2.1⟩
  · rw [calibrate_append, e1]
    simp only [calibrate, e2]
  · cases produced with
    | false => rw [(f1 rfl).2]
    | true => rw [(f2 rfl).1]; exact c4
  · cases produced with
    | false => rw [(f1 rfl).1]; exact c5
    | true => rw [(f2 rfl).2]

/-- C11 for the thresholds 0 and 1, after three rounds, in a round in which
the producer is refused. -/
theorem thresholds_only_narrow_witness :
    ∃ d1 d2, calibrate beforeRound1 [true, false, true] = .ok d1 ∧
      configure d1 = .ok d2 ∧
      calibrate beforeRound1 ([true, false, true] ++ [false]) = .ok (evaluate d2 false) ∧
      d2.thresh_cur = d1.thresh_min + (d1.thresh_max - d1.thresh_min) / 2 ∧
      d1.thresh_min ≤ d2.thresh_cur ∧ d2.thresh_cur ≤ d1.thresh_max ∧
      (false = false → (evaluate d2 false).thresh_max = d2.thresh_cur ∧
        (evaluate d2 false).thresh_min = d1.thresh_min) ∧
      (false = true → (evaluate d2 false).thresh_min = d2.thresh_cur ∧
        (evaluate d2 false).thresh_max = d1.thresh_max) ∧
      d1.thresh_min ≤ (evaluate d2 false).thresh_min ∧
      (evaluate d2 false).thresh_max ≤ d1.thresh_max ∧
      (evaluate d2 false).thresh_min ≤ (evaluate d2 false).thresh_max :=
  thresholds_only_narrow beforeRound1
    ⟨by norm_num [beforeRound1], by norm_num [beforeRound1], by norm_num [beforeRound1]⟩
    [true, false, true] false

/-- C12: from `0 ≤ thresh_min ≤ thresh_max ≤ 1`, for every sequence of round
results, the loop runs all its rounds and the final width
`thresh_max - thresh_min` is the first width divided by `2` to the number of
rounds. -/
theorem width_after_rounds (d : Driver) (hv : d.Valid) (outcomes : List Bool) :
    ∃ d', calibrate d outcomes = .ok d' ∧
      d'.thresh_max - d'.thresh_min =
        (d.thresh_max - d.thresh_min) / 2 ^ outcomes.length := by
  obtain ⟨d', e, -, -, -, w⟩ := calibrate_valid outcomes d hv
  exact ⟨d', e, w⟩

/-- C12 for the thresholds 0 and 1 and four rounds: the final width is
`1 / 16`. -/
theorem width_after_rounds_witness :
    ∃ d', calibrate beforeRound1 [false, true, true, false] = .ok d' ∧
      d'.thresh_max - d'.thresh_min =
        (beforeRound1.thresh_max - beforeRound1.thresh_min) /
          2 ^ [false, true, true, false].length :=
  width_after_rounds beforeRound1
    ⟨by norm_num [beforeRound1], by norm_num [beforeRound1], by norm_num [beforeRound1]⟩
    [false, true, true, false]

/-- C19: for every configuration the input checks let through and every
sequence of round results, the loop runs all its rounds without reaching the
`Thresh cur is not between 0 and 1` exit, and in every round, after any
results `before`, the midpoint `thresh_cur` the round computes satisfies
`0 ≤ thresh_cur ≤ 1`. -/
theorem midpoint_stays_in_unit_interval (d : Driver) (pmem_size ram_size : Nat)
    (hacc : inputChecks pmem_size ram_size d.thresh_min d.thresh_max = none)
    (outcomes : List Bool) :
    (∃ d', calibrate d outcomes = .ok d') ∧
    ∀ before after, outcomes = before ++ after →
      ∃ d1 d2, calibrate d before = .ok d1 ∧ configure d1 = .ok d2 ∧
        d2.thresh_cur = d1.thresh_min + (d1.thresh_max - d1.thresh_min) / 2 ∧
        0 ≤ d2.thresh_cur ∧ d2.thresh_cur ≤ 1 := by
  obtain ⟨-, a2, a3, a4⟩ := inputChecks_none _ _ _ _ hacc
  have hv : d.Valid := ⟨a2, a3, a4⟩
  constructor
  · obtain ⟨d', e, -⟩ := calibrate_valid outcomes d hv
    exact ⟨d', e⟩
  · intro before after _
    obtain ⟨d1, e1, v1, -⟩ := calibrate_valid before d hv
    obtain ⟨d2, e2, c1, -, -, c4, c5, -⟩ := round_valid d1 v1 true
    exact ⟨d1, d2, e1, e2, c1, le_trans v1.1 c4, le_trans c5 v1.2.2⟩

/-- C19 for sizes of one GiB each, the thresholds 0 and 1, and three rounds. -/
theorem midpoint_stays_in_unit_interval_witness :
    (∃ d', calibrate beforeRound1 [false, false, true] = .ok d') ∧
    ∀ before after, [false, false, true] = before ++ after →
      ∃ d1 d2, calibrate beforeRound1 before = .ok d1 ∧ configure d1 = .ok d2 ∧
        d2.thresh_cur = d1.thresh_min + (d1.thresh_max - d1.thresh_min) / 2 ∧
        0 ≤ d2.thresh_cur ∧ d2.thresh_cur ≤ 1 :=
  midpoint_stays_in_unit_interval beforeRound1 (2 ^ 30) (2 ^ 30)
    (by simp [inputChecks, beforeRound1]) [false, false, true]

/-- C13 fails as stated. Take the oracle under which a round overflows iff its
fraction is below `3 / 4` and the thresholds 0 and 1, which bracket `3 / 4`.
The first round runs at `1 / 2`, overflows, and moves `thresh_max` to `1 / 2`:
after one round `3 / 4` lies above the interval. -/
theorem bracket_lost_under_stated_oracle :
    (∀ q : ℚ, (fun q : ℚ => decide (q < 3 / 4)) q = true ↔ q < 3 / 4) ∧
    beforeRound1.thresh_min ≤ 3 / 4 ∧ (3 / 4 : ℚ) ≤ beforeRound1.thresh_max ∧
    ∃ d', calibrateOracle (fun q : ℚ => decide (q < 3 / 4)) 1 beforeRound1 = .ok d' ∧
      d'.thresh_min = 0 ∧ d'.thresh_max = 1 / 2 ∧ ¬ (3 / 4 : ℚ) ≤ d'.thresh_max := by
  refine ⟨fun q => by simp, by norm_num [beforeRound1], by norm_num [beforeRound1], ?_⟩
  have hc := configure_ok beforeRound1 (by norm_num [beforeRound1])
    (by norm_num [beforeRound1])
  have ho : (fun q : ℚ => decide (q < 3 / 4))
      (beforeRound1.thresh_min + (beforeRound1.thresh_max - beforeRound1.thresh_min) / 2) =
      true := by
    norm_num [beforeRound1]
  refine ⟨_, by simp only [calibrateOracle, hc, ho]; rfl, ?_, ?_, ?_⟩
  · show beforeRound1.thresh_min = 0
    rfl
  · show beforeRound1.thresh_min +
      (beforeRound1.thresh_max - beforeRound1.thresh_min) / 2 = 1 / 2
    norm_num [beforeRound1]
  · show ¬ (3 / 4 : ℚ) ≤ beforeRound1.thresh_min +
      (beforeRound1.thresh_max - beforeRound1.thresh_min) / 2
    norm_num [beforeRound1]

/-- C13, as amended: under an oracle by which a round overflows iff its
fraction is above `trueThreshold`, and from thresholds
`0 ≤ thresh_min ≤ trueThreshold ≤ thresh_max ≤ 1`, the loop runs any number
`n` of rounds without a fault and its interval brackets `trueThreshold` after
them: `thresh_min ≤ trueThreshold ≤ thresh_max`. -/
theorem bracket_kept_under_reversed_oracle (overflows : ℚ → Bool) (trueThreshold : ℚ)
    (hmono : ∀ q, overflows q = true ↔ trueThreshold < q) (n : Nat) (d : Driver)
    (hv : d.Valid) (hlo : d.thresh_min ≤ trueThreshold)
    (hhi : trueThreshold ≤ d.thresh_max) :
    ∃ d', calibrateOracle overflows n d = .ok d' ∧
      d'.thresh_min ≤ trueThreshold ∧ trueThreshold ≤ d'.thresh_max := by
  induction n generalizing d with
  | zero => exact ⟨d, rfl, hlo, hhi⟩
  | succ n ih =>
    cases ho : overflows (d.thresh_min + (d.thresh_max - d.thresh_min) / 2) with
    | true =>
      obtain ⟨d1, e1, c1, -, -, -, -, v1, f1, -, -⟩ := round_valid d hv false
      have ht := (hmono _).mp ho
      obtain ⟨d2, e2, g1, g2⟩ := ih (evaluate d1 false) v1
        (by rw [(f1 rfl).2]; exact hlo)
        (by rw [(f1 rfl).1, c1]; exact le_of_lt ht)
      refine ⟨d2, ?_, g1, g2⟩
      simp only [calibrateOracle, e1, c1, ho]
      exact e2
    | false =>
      obtain ⟨d1, e1, c1, -, -, -, -, v1, -, f2, -⟩ := round_valid d hv true
      have ht : ¬ trueThreshold < d.thresh_min + (d.thresh_max - d.thresh_min) / 2 := by
        intro h
        rw [(hmono _).mpr h] at ho
        cases ho
      obtain ⟨d2, e2, g1, g2⟩ := ih (evaluate d1 true) v1
        (by rw [(f2 rfl).1, c1]; exact not_lt.mp ht)
        (by rw [(f2 rfl).2]; exact hhi)
      refine ⟨d2, ?_, g1, g2⟩
      simp only [calibrateOracle, e1, c1, ho]
      exact e2

/-- The amended C13 for `trueThreshold = 3 / 4`, the thresholds 0 and 1 and
five rounds. -/
theorem bracket_kept_under_reversed_oracle_witness :
    ∃ d', calibrateOracle (fun q : ℚ => decide (3 / 4 < q)) 5 beforeRound1 = .ok d' ∧
      d'.thresh_min ≤ 3 / 4 ∧ (3 / 4 : ℚ) ≤ d'.thresh_max :=
  bracket_kept_under_reversed_oracle (fun q : ℚ => decide (3 / 4 < q)) (3 / 4)
    (fun q => by simp) 5 beforeRound1
    ⟨by norm_num [beforeRound1], by norm_num [beforeRound1], by norm_num [beforeRound1]⟩
    (by norm_num [beforeRound1]) (by norm_num [beforeRound1])

/-! ## The durable writes of a round -/

/-- The queue `bigRecordQueue` is the one `Init`, `SetThresh(1 / 2)` and
`Reset` build. -/
theorem bigRecordQueue_configured :
    ∃ s, blank.Init (2 ^ 31) (fun _ => 0) (2 ^ 32) (fun _ => 0) (2 ^ 38) 0 =
        .ok (true, s) ∧
      (s.SetThresh (0 + (1 - 0) / 2)).Reset = bigRecordQueue := by
  refine ⟨_, rfl, ?_⟩
  have hf : ⌊(2 : ℚ) * (0 + (1 - 0) / 2)⌋ = 1 := by
    rw [Int.floor_eq_iff]; norm_num
  simp only [SetThresh, Reset, bigRecordQueue, blank]
  norm_num [hf]

/-- The result of `OFF` never exceeds the byte offset of record `i`. -/
theorem OFF_le (s : ring_buffer) (i : Nat) : s.OFF i ≤ i * s.type_size_ := by
  unfold OFF
  exact le_trans (Nat.mod_le _ _) (Nat.mul_le_mul_right _ (Nat.mod_le _ _))

/-- Under the invariant every copy of `copyRun` ends at or before byte
`enqueued_ * type_size_` of the durable region. -/
theorem copyRun_copies_inside (s : ring_buffer) (h1 : s.dequeued_ < s.enqueued_)
    (h2 : s.enqueued_ - s.dequeued_ ≤ s.max_ram_depth_) :
    ∀ c ∈ (s.copyRun (s.dequeued_ % s.max_ram_depth_)
        ((s.enqueued_ - 1) % s.max_ram_depth_)).1,
      c.dst + c.len ≤ s.enqueued_ * s.type_size_ := by
  obtain ⟨ha, hb⟩ := span_records s.max_ram_depth_ s.dequeued_ s.enqueued_ h1 h2
  have key : ∀ a n, a + n ≤ s.enqueued_ →
      s.OFF a + (n * s.type_size_) % 2 ^ 64 ≤ s.enqueued_ * s.type_size_ := by
    intro a n h
    have e1 := OFF_le s a
    have e2 := Nat.mod_le (n * s.type_size_) (2 ^ 64)
    have e3 := Nat.mul_le_mul_right s.type_size_ h
    rw [Nat.add_mul] at e3
    omega
  unfold copyRun
  split
  · next h =>
    intro c hc
    rw [List.mem_singleton] at hc
    subst hc
    exact key _ _ (by have := ha h; omega)
  · next h =>
    obtain ⟨e, hlt⟩ := hb h
    intro c hc
    simp only [List.mem_cons, List.mem_singleton, List.not_mem_nil, or_false] at hc
    rcases hc with hc | hc
    · subst hc
      exact key _ _ (by omega)
    · subst hc
      have hm := Nat.mod_le
        (s.dequeued_ + (s.max_ram_depth_ - s.dequeued_ % s.max_ram_depth_)) (2 ^ 64)
      exact key _ _ (by omega)

/-- One `Enqueue` or `Consume` of a tracked run keeps every copy made so far
at or before byte `enqueued_ * type_size_` of the durable region. -/
theorem exec_inside (r r' : Run) (op : Op) (hq : op.isQueueCall = true) (ht : r.Tracked)
    (hw0 : r.rbuf.enqueued_ + op.enqueues < 2 ^ 64)
    (hin : ∀ c ∈ r.copies, c.dst + c.len ≤ r.rbuf.enqueued_ * r.rbuf.type_size_)
    (he : exec r op = .ok r') :
    ∀ c ∈ r'.copies, c.dst + c.len ≤ r'.rbuf.enqueued_ * r'.rbuf.type_size_ := by
  obtain ⟨⟨i1, i2⟩, t1, t2, t3, t4⟩ := ht
  have hdep := GetDepth_eq r.rbuf (by omega) i1
  cases op with
  | SetThresh t => cases hq
  | Reset => cases hq
  | Enqueue nonce =>
    have hw : r.rbuf.enqueued_ + 1 < 2 ^ 64 := hw0
    by_cases hfull : r.rbuf.max_ram_depth_ ≤ r.rbuf.GetDepth
    · rw [exec_Enqueue_refuse r nonce hfull] at he
      cases he
      exact hin
    · rw [exec_Enqueue_accept r nonce (by omega)] at he
      cases he
      intro c hc
      have h := hin c hc
      have hm : (r.rbuf.enqueued_ + 1) % 2 ^ 64 = r.rbuf.enqueued_ + 1 :=
        Nat.mod_eq_of_lt hw
      show c.dst + c.len ≤ (r.rbuf.enqueued_ + 1) % 2 ^ 64 * r.rbuf.type_size_
      rw [hm, Nat.add_mul]
      omega
  | Consume force =>
    by_cases hn : (force = false ∧ r.rbuf.GetDepth < r.rbuf.min_consume_depth_) ∨
        r.rbuf.GetDepth = 0
    · have e : exec r (.Consume force) = .ok r := by
        simp [exec, Consume_noop _ _ hn]
      rw [e] at he
      cases he
      exact hin
    · have hd : r.rbuf.dequeued_ < r.rbuf.enqueued_ := by omega
      have hf : force = true ∨
          r.rbuf.min_consume_depth_ ≤ r.rbuf.enqueued_ - r.rbuf.dequeued_ := by
        cases force with
        | true => exact Or.inl rfl
        | false => right; rw [← hdep]; simp at hn; exact hn.1
      rw [exec_Consume_flush r force (by omega) ⟨i1, i2⟩ hd hf] at he
      cases he
      intro c hc
      show c.dst + c.len ≤ (copyRun _ _ _).2.enqueued_ * (copyRun _ _ _).2.type_size_
      rw [copyRun_enqueued, copyRun_type_size]
      rcases List.mem_append.mp hc with hc | hc
      · exact hin c hc
      · exact copyRun_copies_inside r.rbuf hd i2 c hc

/-- A sequence of `Enqueue` and `Consume` calls on a tracked run returns from
every call and keeps every copy at or before byte `enqueued_ * type_size_`. -/
theorem execAll_inside (ops : List Op) (r : Run)
    (hq : ∀ op ∈ ops, op.isQueueCall = true) (ht : r.Tracked)
    (hw : r.rbuf.enqueued_ + enqueueCalls ops < 2 ^ 64)
    (hin : ∀ c ∈ r.copies, c.dst + c.len ≤ r.rbuf.enqueued_ * r.rbuf.type_size_) :
    ∃ r', execAll r ops = .ok r' ∧
      r'.rbuf.enqueued_ ≤ r.rbuf.enqueued_ + enqueueCalls ops ∧
      r'.rbuf.type_size_ = r.rbuf.type_size_ ∧
      ∀ c ∈ r'.copies, c.dst + c.len ≤ r'.rbuf.enqueued_ * r'.rbuf.type_size_ := by
  induction ops generalizing r with
  | nil => exact ⟨r, rfl, Nat.le_refl _, rfl, hin⟩
  | cons op ops ih =>
    rw [enqueueCalls_cons] at hw ⊢
    have hop := hq op (List.mem_cons_self _ _)
    obtain ⟨r1, e1, t1, b1, c1⟩ := exec_tracked r op hop ht (by omega)
    have n1 := exec_inside r r1 op hop ht (by omega) hin e1
    obtain ⟨r2, e2, b2, c2, n2⟩ :=
      ih r1 (fun o ho => hq o (List.mem_cons_of_mem _ ho)) t1 (by omega) n1
    refine ⟨r2, ?_, by omega, by rw [c2, c1], n2⟩
    simp only [execAll, e1, e2]

/-- The durable writes of a round stay inside the durable region. On a reset
queue whose capacities fit its two regions, a sequence of `Enqueue` and
`Consume` calls with at most `GetMaxDepth` calls of `Enqueue` returns from
every call, and every copy it makes ends at or before the end of the durable
region. -/
theorem round_copies_inside_region (s0 : ring_buffer) (ops : List Op)
    (hq : ∀ op ∈ ops, op.isQueueCall = true) (hwf : s0.WF) (hts : 0 < s0.type_size_)
    (hram : s0.max_ram_depth_ * s0.type_size_ ≤ s0.ram_region_size_)
    (hfit : s0.max_pmem_depth_ * s0.type_size_ ≤ s0.pmem_region_size_)
    (hn : enqueueCalls ops ≤ s0.GetMaxDepth) :
    ∃ r, execAll (Run.start s0.Reset) ops = .ok r ∧
      ∀ c ∈ r.copies, c.dst + c.len ≤ s0.pmem_region_size_ := by
  obtain ⟨-, -, w3, -, -, w6, -, -⟩ := hwf
  have hn' : enqueueCalls ops ≤ s0.max_pmem_depth_ := hn
  have ht : (Run.start s0.Reset).Tracked :=
    ⟨⟨Nat.le_refl _, Nat.zero_le _⟩, rfl, rfl, hts, by
      show s0.max_ram_depth_ * s0.type_size_ < 2 ^ 64
      omega⟩
  obtain ⟨r, e, b, c, n⟩ := execAll_inside ops (Run.start s0.Reset) hq ht
    (by show 0 + enqueueCalls ops < 2 ^ 64; omega)
    (fun c hc => absurd hc (List.not_mem_nil c))
  refine ⟨r, e, fun x hx => ?_⟩
  have h1 := n x hx
  have h2 : r.rbuf.enqueued_ ≤ s0.max_pmem_depth_ := by
    have : r.rbuf.enqueued_ ≤ 0 + enqueueCalls ops := b
    omega
  have h3 := Nat.mul_le_mul_right s0.type_size_ h2
  have h4 : r.rbuf.type_size_ = s0.type_size_ := c
  rw [h4] at h1
  omega

theorem bytesCopied_cons (c : Copy) (cs : List Copy) :
    bytesCopied (c :: cs) = c.len + bytesCopied cs := by
  simp [bytesCopied]

theorem bytesCopied_append (a b : List Copy) :
    bytesCopied (a ++ b) = bytesCopied a + bytesCopied b := by
  simp [bytesCopied]

/-- A chain followed by a chain that starts where the first one ended is a
chain. -/
theorem chained_append (xs ys : List Copy) (a : Nat) (hx : chained a xs)
    (hy : chained (a + bytesCopied xs) ys) : chained a (xs ++ ys) := by
  induction xs generalizing a with
  | nil => simpa [bytesCopied] using hy
  | cons c cs ih =>
    obtain ⟨h1, h2, h3⟩ := hx
    rw [bytesCopied_cons, ← Nat.add_assoc] at hy
    exact ⟨h1, h2, ih _ h3 hy⟩

/-- While `enqueued_ * type_size_` fits 32 bits, the copies of `copyRun` follow
one another from byte `dequeued_ * type_size_` on and cover the records not
yet flushed. -/
theorem copyRun_chained (s : ring_buffer) (h1 : s.dequeued_ < s.enqueued_)
    (h2 : s.enqueued_ - s.dequeued_ ≤ s.max_ram_depth_) (hts : 0 < s.type_size_)
    (hex : s.enqueued_ * s.type_size_ ≤ 2 ^ 32) :
    chained (s.dequeued_ * s.type_size_)
      (s.copyRun (s.dequeued_ % s.max_ram_depth_)
        ((s.enqueued_ - 1) % s.max_ram_depth_)).1 ∧
    bytesCopied (s.copyRun (s.dequeued_ % s.max_ram_depth_)
        ((s.enqueued_ - 1) % s.max_ram_depth_)).1 =
      (s.enqueued_ - s.dequeued_) * s.type_size_ := by
  obtain ⟨ha, hb⟩ := span_records s.max_ram_depth_ s.dequeued_ s.enqueued_ h1 h2
  have hE : s.enqueued_ ≤ s.enqueued_ * s.type_size_ := Nat.le_mul_of_pos_right _ hts
  have key : ∀ a n, 0 < n → a + n ≤ s.enqueued_ →
      s.OFF a = a * s.type_size_ ∧ (n * s.type_size_) % 2 ^ 64 = n * s.type_size_ ∧
      0 < n * s.type_size_ := by
    intro a n hn h
    have e3 := Nat.mul_le_mul_right s.type_size_ h
    rw [Nat.add_mul] at e3
    have e4 : s.type_size_ ≤ n * s.type_size_ := Nat.le_mul_of_pos_left _ hn
    exact ⟨OFF_exact s a hts (by omega), Nat.mod_eq_of_lt (by omega), by omega⟩
  unfold copyRun
  split
  · next h =>
    have e := ha h
    obtain ⟨k1, k2, k3⟩ := key s.dequeued_
      ((s.enqueued_ - 1) % s.max_ram_depth_ - s.dequeued_ % s.max_ram_depth_ + 1)
      (by omega) (by omega)
    refine ⟨⟨k1, ?_, trivial⟩, ?_⟩
    · show 0 < _ % 2 ^ 64
      rw [k2]; exact k3
    · show bytesCopied [_] = _
      rw [bytesCopied_cons]
      show _ % 2 ^ 64 + bytesCopied [] = _
      rw [k2, e]; rfl
  · next h =>
    obtain ⟨e, hlt⟩ := hb h
    obtain ⟨k1, k2, k3⟩ := key s.dequeued_
      (s.max_ram_depth_ - s.dequeued_ % s.max_ram_depth_) (by omega) (by omega)
    obtain ⟨l1, l2, l3⟩ := key
      (s.dequeued_ + (s.max_ram_depth_ - s.dequeued_ % s.max_ram_depth_))
      ((s.enqueued_ - 1) % s.max_ram_depth_ + 1) (by omega) (by omega)
    have hm : (s.dequeued_ + (s.max_ram_depth_ - s.dequeued_ % s.max_ram_depth_)) % 2 ^ 64 =
        s.dequeued_ + (s.max_ram_depth_ - s.dequeued_ % s.max_ram_depth_) :=
      Nat.mod_eq_of_lt (by omega)
    refine ⟨⟨k1, ?_, ?_, ?_, trivial⟩, ?_⟩
    · show 0 < _ % 2 ^ 64
      rw [k2]; exact k3
    · show s.OFF (_ % 2 ^ 64) = _ + _ % 2 ^ 64
      rw [hm, l1, k2, Nat.add_mul]
    · show 0 < _ % 2 ^ 64
      rw [l2]; exact l3
    · show bytesCopied [_, _] = _
      rw [bytesCopied_cons, bytesCopied_cons]
      show _ % 2 ^ 64 + (_ % 2 ^ 64 + bytesCopied []) = _
      have z : bytesCopied [] = 0 := rfl
      rw [k2, l2, ← e, z, Nat.add_zero]
      exact (Nat.add_mul _ _ _).symm

/-- One `Enqueue` or `Consume` of a tracked run keeps its copies a chain from
byte 0 that covers the records flushed, while `enqueued_ * type_size_` fits 32
bits. -/
theorem exec_chained (r r' : Run) (op : Op) (hq : op.isQueueCall = true) (ht : r.Tracked)
    (hex : (r.rbuf.enqueued_ + op.enqueues) * r.rbuf.type_size_ ≤ 2 ^ 32)
    (hch : chained 0 r.copies)
    (hby : bytesCopied r.copies = r.rbuf.dequeued_ * r.rbuf.type_size_)
    (he : exec r op = .ok r') :
    chained 0 r'.copies ∧
      bytesCopied r'.copies = r'.rbuf.dequeued_ * r'.rbuf.type_size_ := by
  obtain ⟨⟨i1, i2⟩, t1, t2, t3, t4⟩ := ht
  have hE : r.rbuf.enqueued_ + op.enqueues ≤
      (r.rbuf.enqueued_ + op.enqueues) * r.rbuf.type_size_ := Nat.le_mul_of_pos_right _ t3
  have hdep := GetDepth_eq r.rbuf (by omega) i1
  cases op with
  | SetThresh t => cases hq
  | Reset => cases hq
  | Enqueue nonce =>
    by_cases hfull : r.rbuf.max_ram_depth_ ≤ r.rbuf.GetDepth
    · rw [exec_Enqueue_refuse r nonce hfull] at he
      cases he
      exact ⟨hch, hby⟩
    · rw [exec_Enqueue_accept r nonce (by omega)] at he
      cases he
      exact ⟨hch, hby⟩
  | Consume force =>
    by_cases hn : (force = false ∧ r.rbuf.GetDepth < r.rbuf.min_consume_depth_) ∨
        r.rbuf.GetDepth = 0
    · have e : exec r (.Consume force) = .ok r := by
        simp [exec, Consume_noop _ _ hn]
      rw [e] at he
      cases he
      exact ⟨hch, hby⟩
    · have hd : r.rbuf.dequeued_ < r.rbuf.enqueued_ := by omega
      have hf : force = true ∨
          r.rbuf.min_consume_depth_ ≤ r.rbuf.enqueued_ - r.rbuf.dequeued_ := by
        cases force with
        | true => exact Or.inl rfl
        | false => right; rw [← hdep]; simp at hn; exact hn.1
      have hex' : r.rbuf.enqueued_ * r.rbuf.type_size_ ≤ 2 ^ 32 := hex
      rw [exec_Consume_flush r force (by omega) ⟨i1, i2⟩ hd hf] at he
      cases he
      obtain ⟨c1, c2⟩ := copyRun_chained r.rbuf hd i2 t3 hex'
      have hq' := copyRun_dequeued r.rbuf (by omega) hd i2
      refine ⟨chained_append _ _ 0 hch (by rw [Nat.zero_add, hby]; exact c1), ?_⟩
      show bytesCopied (r.copies ++ (copyRun _ _ _).1) =
        (copyRun _ _ _).2.dequeued_ * (copyRun _ _ _).2.type_size_
      rw [bytesCopied_append, c2, hby, hq', copyRun_type_size, ← Nat.add_mul]
      congr 1
      omega

/-- A sequence of `Enqueue` and `Consume` calls on a tracked run keeps its
copies a chain from byte 0, while the records produced fit 32 bits of
offset. -/
theorem execAll_chained (ops : List Op) (r : Run)
    (hq : ∀ op ∈ ops, op.isQueueCall = true) (ht : r.Tracked)
    (hex : (r.rbuf.enqueued_ + enqueueCalls ops) * r.rbuf.type_size_ ≤ 2 ^ 32)
    (hch : chained 0 r.copies)
    (hby : bytesCopied r.copies = r.rbuf.dequeued_ * r.rbuf.type_size_) :
    ∃ r', execAll r ops = .ok r' ∧ chained 0 r'.copies ∧
      bytesCopied r'.copies = r'.rbuf.dequeued_ * r'.rbuf.type_size_ ∧
      r'.rbuf.type_size_ = r.rbuf.type_size_ := by
  induction ops generalizing r with
  | nil => exact ⟨r, rfl, hch, hby, rfl⟩
  | cons op ops ih =>
    rw [enqueueCalls_cons] at hex
    have hop := hq op (List.mem_cons_self _ _)
    have hE : r.rbuf.enqueued_ + (op.enqueues + enqueueCalls ops) ≤
        (r.rbuf.enqueued_ + (op.enqueues + enqueueCalls ops)) * r.rbuf.type_size_ :=
      Nat.le_mul_of_pos_right _ ht.2.2.2.1
    have hex1 : (r.rbuf.enqueued_ + op.enqueues) * r.rbuf.type_size_ ≤ 2 ^ 32 :=
      le_trans (Nat.mul_le_mul_right _ (by omega)) hex
    obtain ⟨r1, e1, t1, b1, c1⟩ := exec_tracked r op hop ht (by omega)
    obtain ⟨n1, m1⟩ := exec_chained r r1 op hop ht hex1 hch hby e1
    have hex2 : (r1.rbuf.enqueued_ + enqueueCalls ops) * r1.rbuf.type_size_ ≤ 2 ^ 32 := by
      rw [c1]
      exact le_trans (Nat.mul_le_mul_right _ (by omega)) hex
    obtain ⟨r2, e2, n2, m2, c2⟩ :=
      ih r1 (fun o ho => hq o (List.mem_cons_of_mem _ ho)) t1 hex2 n1 m1
    refine ⟨r2, ?_, n2, m2, by rw [c2, c1]⟩
    simp only [execAll, e1, e2]

/-- The durable writes of a round are contiguous while `OFF` is exact. On a
reset queue whose capacities fit its two regions and whose durable region is
at most `2 ^ 32` bytes long, a sequence of `Enqueue` and `Consume` calls with
at most `GetMaxDepth` calls of `Enqueue` returns from every call, and its
copies follow one another from byte 0 of the durable region on: each is at
least one byte long and begins where the one before it ended. -/
theorem round_copies_chained_while_OFF_exact (s0 : ring_buffer) (ops : List Op)
    (hq : ∀ op ∈ ops, op.isQueueCall = true) (hwf : s0.WF) (hts : 0 < s0.type_size_)
    (hram : s0.max_ram_depth_ * s0.type_size_ ≤ s0.ram_region_size_)
    (hfit : s0.max_pmem_depth_ * s0.type_size_ ≤ s0.pmem_region_size_)
    (hsmall : s0.pmem_region_size_ ≤ 2 ^ 32)
    (hn : enqueueCalls ops ≤ s0.GetMaxDepth) :
    ∃ r, execAll (Run.start s0.Reset) ops = .ok r ∧ chained 0 r.copies ∧
      bytesCopied r.copies = r.rbuf.dequeued_ * s0.type_size_ := by
  obtain ⟨-, -, w3, -, -, -, -, -⟩ := hwf
  have hn' : enqueueCalls ops ≤ s0.max_pmem_depth_ := hn
  have ht : (Run.start s0.Reset).Tracked :=
    ⟨⟨Nat.le_refl _, Nat.zero_le _⟩, rfl, rfl, hts, by
      show s0.max_ram_depth_ * s0.type_size_ < 2 ^ 64
      omega⟩
  have h3 := Nat.mul_le_mul_right s0.type_size_ hn'
  obtain ⟨r, e, n, m, c⟩ := execAll_chained ops (Run.start s0.Reset) hq ht
    (by show (0 + enqueueCalls ops) * s0.type_size_ ≤ 2 ^ 32; rw [Nat.zero_add]; omega)
    trivial (by show bytesCopied [] = 0 * s0.type_size_; rw [Nat.zero_mul]; rfl)
  have c' : r.rbuf.type_size_ = s0.type_size_ := c
  rw [c'] at m
  exact ⟨r, e, n, m⟩

/-- C18, at a failing input: the first round over two staging slots of
`2 ^ 31` bytes and 128 durable records, the queue reset, scheduled producer,
producer, consumer, producer, consumer. The producer has made three `Enqueue`
calls, all accepted, fewer than the 128 of `GetMaxDepth`. The two copies of
the consumer both lie inside the durable region, but the second, of record 2,
goes to `OFF(2) = 0` and not to the end of the first at `2 ^ 32`: the offsets
do not increase and the bytes from 0 to `2 ^ 31` are written twice. -/
theorem round_copies_overlap_by_OFF :
    bigRecordRound.rbuf.enqueued_ = 0 ∧ bigRecordRound.rbuf.dequeued_ = 0 ∧
    bigRecordRound.rbuf.GetMaxDepth = 128 ∧
    (runRound bigRecordRound
      [.producer, .producer, .consumer, .producer, .consumer]).attempts = 3 ∧
    (runRound bigRecordRound
      [.producer, .producer, .consumer, .producer, .consumer]).rbuf.enqueued_ = 3 ∧
    roundCopies bigRecordRound [.producer, .producer, .consumer, .producer, .consumer] =
      [⟨0, 0, 2 ^ 32⟩, ⟨0, 0, 2 ^ 31⟩] ∧
    (∀ c ∈ roundCopies bigRecordRound
        [.producer, .producer, .consumer, .producer, .consumer],
      c.dst + c.len ≤ bigRecordRound.rbuf.pmem_region_size_) ∧
    ¬ chained 0 (roundCopies bigRecordRound
      [.producer, .producer, .consumer, .producer, .consumer]) := by
  have hc : roundCopies bigRecordRound
      [.producer, .producer, .consumer, .producer, .consumer] =
      [⟨0, 0, 2 ^ 32⟩, ⟨0, 0, 2 ^ 31⟩] := rfl
  refine ⟨rfl, rfl, rfl, rfl, rfl, hc, ?_, ?_⟩
  · rw [hc]; decide
  · rw [hc]
    simp [chained]

end pmem_bench
